import Mathlib

/-!
Shallow embedding of the tradeshift-challenge tree service
(`src/services/nodeService.ts`) and its MongoDB-backed node repository
(`src/respositories/nodeRepository.ts`).

Node identifiers are modelled as natural numbers; the store keeps an
association list of persisted node records together with a counter
supplying fresh ids (mongoose generates a fresh `_id` on `create`).
Every repository operation is a state transformer returning the result
and the store after the call; read-only queries (`findById`,
`countDocuments`) return the store unchanged, which is what the source's
queries do.  The unbounded loops of the service (`getDescendants`'s
queue, `getNodeInfo`'s parent-chain walk) are given explicit fuel; the
distinguished error `Err.fuel` marks the executions on which the source
would loop forever, and is proved unreachable on stores satisfying the
tree invariant.

Mongoose control-flow detail that matters here: inside the `try` blocks
of `addNode`/`setParent`, error paths use `return Promise.reject(...)`,
which does not throw, so the `catch` block (the `abortTransaction`) is
never executed on those paths, and the session is never passed to the
individual queries; each `save()`/`create()` therefore persists
immediately and only the paths actually modified on the in-memory
document are written back.
-/

deriving instance DecidableEq for Except

namespace NodeTree

inductive Err where
  | notFound
  | duplicateRoot
  | invalidArgument
  | invalidStructure
  | fuel
deriving DecidableEq

structure NodeRec where
  parent : Option Nat
  children : List Nat
deriving DecidableEq

/-- Storage-agnostic node object (`src/models/node.ts`). -/
structure Node where
  id : Nat
  parent : Option Nat
  children : List Nat
deriving DecidableEq

/-- Derived node information (`src/models/nodeInfo.ts`). -/
structure NodeInfo where
  id : Nat
  parent : Option Nat
  depth : Nat
  root : Nat
deriving DecidableEq

/-- Persisted state: node records keyed by id, plus the fresh-id counter. -/
structure Store where
  nodes : List (Nat × NodeRec)
  next : Nat
deriving DecidableEq

/-- First-match lookup in the record list (`Model.findById`). -/
def lookupRec : List (Nat × NodeRec) → Nat → Option NodeRec
  | [], _ => none
  | p :: rest, id => if p.1 = id then some p.2 else lookupRec rest id

def findNode (s : Store) (id : Nat) : Option NodeRec :=
  lookupRec s.nodes id

/-- Replace the record stored under `id` (a mongoose `save()`). -/
def updateList : List (Nat × NodeRec) → Nat → NodeRec → List (Nat × NodeRec)
  | [], _, _ => []
  | p :: rest, id, r =>
    if p.1 = id then (id, r) :: updateList rest id r else p :: updateList rest id r

def updateRec (s : Store) (id : Nat) (r : NodeRec) : Store :=
  ⟨updateList s.nodes id r, s.next⟩

/-- Parent field of the record stored under `id`, when such a record exists. -/
def parentOfRec (s : Store) (id : Nat) : Option (Option Nat) :=
  (findNode s id).map NodeRec.parent

/-- Children list of the record stored under `id` (empty when absent). -/
def childrenOf (s : Store) (id : Nat) : List Nat :=
  match findNode s id with
  | none => []
  | some r => r.children

namespace NodeRepository

/-- Embedding of `NodeRepository.getNode` / `findNodeByIdOrReject`:
a read-only `findById` that rejects with `NotFoundError` when the id
does not resolve. -/
def getNode (s : Store) (id : Nat) : Except Err Node × Store :=
  match findNode s id with
  | none => (.error .notFound, s)
  | some r => (.ok ⟨id, r.parent, r.children⟩, s)

/-- Embedding of `NodeRepository.getNodeCount` (`countDocuments`). -/
def getNodeCount (s : Store) : Nat × Store :=
  (s.nodes.length, s)

/-- Embedding of `NodeRepository.addNode`.  `NodeModel.create` persists the
new document first; the parent is looked up afterwards, and when the
parent id does not resolve the method rejects with `NotFoundError`
without removing the document it just created (the `Promise.reject`
return skips the `catch` block, and the session was never attached to
the queries). -/
def addNode (s : Store) (parentId : Option Nat) : Except Err Node × Store :=
  let newId := s.next
  let s1 : Store := ⟨s.nodes ++ [(newId, ⟨parentId, []⟩)], s.next + 1⟩
  match parentId with
  | none => (.ok ⟨newId, none, []⟩, s1)
  | some pid =>
    match findNode s1 pid with
    | none => (.error .notFound, s1)
    | some prec =>
      (.ok ⟨newId, some pid, []⟩,
        updateRec s1 pid ⟨prec.parent, prec.children ++ [newId]⟩)

/-- Embedding of `NodeRepository.setParent`.  The old parent's children
list is filtered and saved before the new parent id is resolved, so a
`NotFoundError` on the new parent leaves that first write persisted.
The final `mongoNode.save()` writes only the modified `parent` path of
the node fetched at the start; the returned `Node` is converted from
that in-memory document (children as fetched at the start). -/
def setParent (s : Store) (nodeId parentId : Nat) : Except Err Node × Store :=
  match findNode s nodeId with
  | none => (.error .notFound, s)
  | some nrec =>
    match nrec.parent with
    | none => (.error .invalidStructure, s)
    | some oldPid =>
      match findNode s oldPid with
      | none => (.error .notFound, s)
      | some oprec =>
        let s1 := updateRec s oldPid
          ⟨oprec.parent, oprec.children.filter (fun c => c ≠ nodeId)⟩
        match findNode s1 parentId with
        | none => (.error .notFound, s1)
        | some prec =>
          let s2 := updateRec s1 parentId ⟨prec.parent, prec.children ++ [nodeId]⟩
          let s3 :=
            match findNode s2 nodeId with
            | none => s2
            | some cur => updateRec s2 nodeId ⟨some parentId, cur.children⟩
          (.ok ⟨nodeId, some parentId, nrec.children⟩, s3)

end NodeRepository

namespace NodeService

/-- Fuel ample for one walk up the parent chain: a chain on a store
satisfying the tree invariant visits pairwise distinct nodes. -/
def chainFuel (s : Store) : Nat := s.nodes.length

/-- Embedding of the parent-chain loop of `NodeService.getNodeInfo`:
starting from a node object already in hand, follow `parent` pointers
through the repository until a parentless node is reached, counting the
steps; returns the pair of the depth and the root id. -/
def rootWalk (s : Store) (fuel : Nat) (cur : Node) : Except Err (Nat × Nat) × Store :=
  match cur.parent with
  | none => (.ok (0, cur.id), s)
  | some p =>
    match fuel with
    | 0 => (.error .fuel, s)
    | fuel' + 1 =>
      match NodeRepository.getNode s p with
      | (.error e, s') => (.error e, s')
      | (.ok pn, s') =>
        match rootWalk s' fuel' pn with
        | (.error e, s'') => (.error e, s'')
        | (.ok dr, s'') => (.ok (dr.1 + 1, dr.2), s'')

/-- Embedding of `NodeService.getNodeInfo`. -/
def getNodeInfo (s : Store) (fuel : Nat) (node : Node) : Except Err NodeInfo × Store :=
  match rootWalk s fuel node with
  | (.error e, s') => (.error e, s')
  | (.ok dr, s') => (.ok ⟨node.id, node.parent, dr.1, dr.2⟩, s')

/-- Embedding of the queue loop of `NodeService.getDescendants`: dequeue
an id, resolve it, compute its info, append it to the accumulator, and
enqueue its children. -/
def bfs (s : Store) (fuel : Nat) (queue : List Nat) (acc : List NodeInfo) :
    Except Err (List NodeInfo) × Store :=
  match fuel with
  | 0 => (.error .fuel, s)
  | fuel' + 1 =>
    match queue with
    | [] => (.ok acc, s)
    | qid :: rest =>
      match NodeRepository.getNode s qid with
      | (.error e, s') => (.error e, s')
      | (.ok qnode, s') =>
        match getNodeInfo s' (chainFuel s') qnode with
        | (.error e, s'') => (.error e, s'')
        | (.ok info, s'') => bfs s'' fuel' (rest ++ qnode.children) (acc ++ [info])

/-- Fuel ample for the whole breadth-first traversal: on a store
satisfying the tree invariant each queued id is a distinct stored node. -/
def bfsFuel (s : Store) : Nat := s.nodes.length + 1

/-- Embedding of `NodeService.getDescendants`. -/
def getDescendants (s : Store) (id : Nat) : Except Err (List NodeInfo) × Store :=
  match NodeRepository.getNode s id with
  | (.error e, s') => (.error e, s')
  | (.ok node, s') => bfs s' (bfsFuel s') node.children []

/-- Embedding of `NodeService.addNode`: the duplicate-root guard consults
the repository count, then delegates to the repository and derives the
returned `NodeInfo`. -/
def addNode (s : Store) (parentId : Option Nat) : Except Err NodeInfo × Store :=
  if parentId = none ∧ (NodeRepository.getNodeCount s).1 > 0 then
    (.error .duplicateRoot, s)
  else
    match NodeRepository.addNode s parentId with
    | (.error e, s') => (.error e, s')
    | (.ok node, s') => getNodeInfo s' (chainFuel s') node

/-- Embedding of `NodeService.setParent`: equality guard, cycle check via
`getDescendants`, then delegation to the repository. -/
def setParent (s : Store) (nodeId parentId : Nat) : Except Err NodeInfo × Store :=
  if nodeId = parentId then
    (.error .invalidArgument, s)
  else
    match getDescendants s nodeId with
    | (.error e, s') => (.error e, s')
    | (.ok descendants, s') =>
      if descendants.any (fun d => d.id = parentId) then
        (.error .invalidStructure, s')
      else
        match NodeRepository.setParent s' nodeId parentId with
        | (.error e, s'') => (.error e, s'')
        | (.ok node, s'') => getNodeInfo s'' (chainFuel s'') node

end NodeService

/-! Tree invariant.  All conjuncts are decidable so that the invariant
can be checked by evaluation on concrete stores. -/

/-- Ids under which a record is stored. -/
def keys (s : Store) : List Nat := s.nodes.map Prod.fst

/-- Fuel-bounded walk up the parent chain from `id`; returns the number
of parent edges followed and the id of the parentless node reached, or
`none` when a lookup fails or the fuel runs out. -/
def chase (s : Store) (fuel : Nat) (id : Nat) : Option (Nat × Nat) :=
  match findNode s id with
  | none => none
  | some r =>
    match r.parent with
    | none => some (0, id)
    | some p =>
      match fuel with
      | 0 => none
      | fuel' + 1 => (chase s fuel' p).map (fun dr => (dr.1 + 1, dr.2))

/-- Depth of a stored node: parent edges between it and its root. -/
def depthOf (s : Store) (id : Nat) : Option Nat :=
  (chase s s.nodes.length id).map Prod.fst

/-- Root reached from a stored node along its parent chain. -/
def rootOf (s : Store) (id : Nat) : Option Nat :=
  (chase s s.nodes.length id).map Prod.snd

/-- Number of parentless records. -/
def rootCount (s : Store) : Nat :=
  s.nodes.countP (fun p => p.2.parent.isNone)

abbrev keysNodup (s : Store) : Prop := (keys s).Nodup

abbrev boundedKeys (s : Store) : Prop := ∀ p ∈ s.nodes, p.1 < s.next

abbrev boundedParents (s : Store) : Prop :=
  ∀ p ∈ s.nodes, ∀ q ∈ p.2.parent.toList, q < s.next

/-- Every id in a children list is stored and points back at its parent. -/
abbrev childrenPoint (s : Store) : Prop :=
  ∀ p ∈ s.nodes, ∀ c ∈ p.2.children, parentOfRec s c = some (some p.1)

abbrev childrenNodup (s : Store) : Prop := ∀ p ∈ s.nodes, p.2.children.Nodup

/-- Every stored parent id resolves and lists the node among its children. -/
abbrev parentLinked (s : Store) : Prop :=
  ∀ p ∈ s.nodes, ∀ q ∈ p.2.parent.toList, p.1 ∈ childrenOf s q

/-- Every stored node's parent chain reaches a root within `|nodes|` steps. -/
abbrev chainTerminates (s : Store) : Prop :=
  ∀ p ∈ s.nodes, (chase s s.nodes.length p.1).isSome = true

/-- The tree invariant of the specification: unique keys, bounded ids,
bidirectional parent/children consistency, duplicate-free children
lists, terminating parent chains, and at most one root. -/
abbrev Inv (s : Store) : Prop :=
  keysNodup s ∧ boundedKeys s ∧ boundedParents s ∧ childrenPoint s ∧
  childrenNodup s ∧ parentLinked s ∧ chainTerminates s ∧ rootCount s ≤ 1

/-- Bidirectional children/parent consistency exactly as the
specification states it: an id is in a stored node's children list iff
its own stored parent is that node. -/
def ChildConsistent (s : Store) : Prop :=
  ∀ pid prec, findNode s pid = some prec →
    ∀ c, c ∈ prec.children ↔ parentOfRec s c = some (some pid)

/-- Ideal description of the `NodeInfo` the service computes for a
stored node on a store with terminating chains. -/
def infoOf (s : Store) (id : Nat) : NodeInfo :=
  match findNode s id, chase s s.nodes.length id with
  | some r, some dr => ⟨id, r.parent, dr.1, dr.2⟩
  | _, _ => ⟨id, none, 0, id⟩

/-- Breadth-first levels: the frontier, then the levels below the
concatenation of the frontier members' children lists, cut off by fuel. -/
def levels (s : Store) (fuel : Nat) (frontier : List Nat) : List Nat :=
  match fuel with
  | 0 => []
  | fuel' + 1 =>
    match frontier with
    | [] => []
    | _ => frontier ++ levels s fuel' ((frontier.map (childrenOf s)).flatten)

/-! Basic lemmas about lookup and update. -/

theorem lookupRec_append_of_some {l₁ : List (Nat × NodeRec)} (l₂ : List (Nat × NodeRec))
    {id : Nat} {r : NodeRec} (h : lookupRec l₁ id = some r) :
    lookupRec (l₁ ++ l₂) id = some r := by
  induction l₁ with
  | nil => simp [lookupRec] at h
  | cons p rest ih =>
    rw [List.cons_append]
    by_cases hp : p.1 = id
    · simp only [lookupRec, hp, if_true, eq_self_iff_true] at h ⊢
      exact h
    · simp only [lookupRec, hp, if_false] at h ⊢
      exact ih h

theorem lookupRec_append_of_none {l₁ : List (Nat × NodeRec)} (l₂ : List (Nat × NodeRec))
    {id : Nat} (h : lookupRec l₁ id = none) :
    lookupRec (l₁ ++ l₂) id = lookupRec l₂ id := by
  induction l₁ with
  | nil => simp
  | cons p rest ih =>
    rw [List.cons_append]
    by_cases hp : p.1 = id
    · simp [lookupRec, hp] at h
    · simp only [lookupRec, hp, if_false] at h ⊢
      exact ih h

theorem lookupRec_eq_none_of_not_mem {l : List (Nat × NodeRec)} {id : Nat}
    (h : id ∉ l.map Prod.fst) : lookupRec l id = none := by
  induction l with
  | nil => rfl
  | cons p rest ih =>
    simp only [List.map_cons, List.mem_cons, not_or] at h
    simp only [lookupRec, Ne.symm h.1, if_neg, not_false_iff]
    exact ih h.2

theorem lookupRec_mem {l : List (Nat × NodeRec)} {id : Nat} {r : NodeRec}
    (h : lookupRec l id = some r) : (id, r) ∈ l := by
  induction l with
  | nil => simp [lookupRec] at h
  | cons p rest ih =>
    obtain ⟨a, b⟩ := p
    by_cases hp : a = id
    · simp only [lookupRec, hp, if_true, eq_self_iff_true, Option.some.injEq] at h
      subst hp
      subst h
      exact List.mem_cons_self _ _
    · simp only [lookupRec, hp, if_false] at h
      exact List.mem_cons_of_mem _ (ih h)

theorem lookupRec_isSome_of_mem {l : List (Nat × NodeRec)} {id : Nat}
    (h : id ∈ l.map Prod.fst) : ∃ r, lookupRec l id = some r := by
  induction l with
  | nil => simp at h
  | cons p rest ih =>
    by_cases hp : p.1 = id
    · exact ⟨p.2, by simp [lookupRec, hp]⟩
    · simp only [List.map_cons, List.mem_cons] at h
      rcases h with h | h
      · exact absurd h.symm hp
      · simpa [lookupRec, hp] using ih h

theorem updateList_eq_map (l : List (Nat × NodeRec)) (id : Nat) (r : NodeRec) :
    updateList l id r = l.map (fun p => if p.1 = id then (id, r) else p) := by
  induction l with
  | nil => rfl
  | cons p rest ih =>
    by_cases hp : p.1 = id <;> simp [updateList, hp, ih]

theorem lookupRec_updateList_ne {l : List (Nat × NodeRec)} {id j : Nat} (r : NodeRec)
    (h : j ≠ id) : lookupRec (updateList l id r) j = lookupRec l j := by
  induction l with
  | nil => rfl
  | cons p rest ih =>
    by_cases hp : p.1 = id
    · simp only [updateList, hp, if_pos, lookupRec, Ne.symm h, if_neg, not_false_iff]
      simpa [lookupRec, hp, h] using ih
    · simp only [updateList, hp, if_neg, not_false_iff]
      by_cases hj : p.1 = j <;> simp [lookupRec, hj, ih]

theorem lookupRec_updateList_self {l : List (Nat × NodeRec)} {id : Nat} {r₀ : NodeRec}
    (r : NodeRec) (h : lookupRec l id = some r₀) :
    lookupRec (updateList l id r) id = some r := by
  induction l with
  | nil => simp [lookupRec] at h
  | cons p rest ih =>
    by_cases hp : p.1 = id
    · simp [updateList, hp, lookupRec]
    · simp only [lookupRec, hp, if_neg, not_false_iff] at h
      simp only [updateList, hp, if_neg, not_false_iff, lookupRec]
      simp [hp, ih h]

theorem lookupRec_updateList_none {l : List (Nat × NodeRec)} {id : Nat}
    (r : NodeRec) (h : lookupRec l id = none) :
    lookupRec (updateList l id r) id = none := by
  induction l with
  | nil => rfl
  | cons p rest ih =>
    by_cases hp : p.1 = id
    · simp [lookupRec, hp] at h
    · simp only [lookupRec, hp, if_neg, not_false_iff] at h
      simp only [updateList, hp, if_neg, not_false_iff, lookupRec]
      simp [hp, ih h]

theorem findNode_updateRec_ne {s : Store} {id j : Nat} (r : NodeRec) (h : j ≠ id) :
    findNode (updateRec s id r) j = findNode s j :=
  lookupRec_updateList_ne r h

theorem findNode_updateRec_self {s : Store} {id : Nat} {r₀ : NodeRec} (r : NodeRec)
    (h : findNode s id = some r₀) : findNode (updateRec s id r) id = some r :=
  lookupRec_updateList_self r h

theorem keys_updateRec (s : Store) (id : Nat) (r : NodeRec) :
    keys (updateRec s id r) = keys s := by
  simp only [keys, updateRec, updateList_eq_map, List.map_map]
  refine List.map_congr_left ?_
  intro p _
  by_cases hp : p.1 = id <;> simp [hp, Function.comp]

theorem next_updateRec (s : Store) (id : Nat) (r : NodeRec) :
    (updateRec s id r).next = s.next := rfl

theorem length_updateRec (s : Store) (id : Nat) (r : NodeRec) :
    (updateRec s id r).nodes.length = s.nodes.length := by
  simp [updateRec, updateList_eq_map]

theorem findNode_mem {s : Store} {id : Nat} {r : NodeRec}
    (h : findNode s id = some r) : (id, r) ∈ s.nodes :=
  lookupRec_mem h

theorem mem_keys_of_findNode {s : Store} {id : Nat} {r : NodeRec}
    (h : findNode s id = some r) : id ∈ keys s := by
  simp only [keys, List.mem_map]
  exact ⟨(id, r), findNode_mem h, rfl⟩

theorem findNode_of_mem_keys {s : Store} {id : Nat} (h : id ∈ keys s) :
    ∃ r, findNode s id = some r :=
  lookupRec_isSome_of_mem (by simpa [keys] using h)

/-! Read-only operations leave the store untouched. -/

theorem getNode_snd (s : Store) (id : Nat) : (NodeRepository.getNode s id).2 = s := by
  unfold NodeRepository.getNode
  cases findNode s id <;> rfl

theorem getNode_fst_ok {s : Store} {id : Nat} {r : NodeRec} (h : findNode s id = some r) :
    NodeRepository.getNode s id = (.ok ⟨id, r.parent, r.children⟩, s) := by
  unfold NodeRepository.getNode
  rw [h]

theorem getNode_fst_err {s : Store} {id : Nat} (h : findNode s id = none) :
    NodeRepository.getNode s id = (.error .notFound, s) := by
  unfold NodeRepository.getNode
  rw [h]

theorem rootWalk_snd (s : Store) (fuel : Nat) (cur : Node) :
    (NodeService.rootWalk s fuel cur).2 = s := by
  induction fuel generalizing cur with
  | zero =>
    unfold NodeService.rootWalk
    cases cur.parent <;> rfl
  | succ n ih =>
    unfold NodeService.rootWalk
    cases hc : cur.parent with
    | none => rfl
    | some p =>
      cases hf : findNode s p with
      | none => simp [NodeRepository.getNode, hf]
      | some r =>
        simp only [NodeRepository.getNode, hf]
        have hs := ih ⟨p, r.parent, r.children⟩
        cases hw : NodeService.rootWalk s n ⟨p, r.parent, r.children⟩ with
        | mk a b =>
          rw [hw] at hs
          cases a <;> simpa using hs

theorem getNodeInfo_snd (s : Store) (fuel : Nat) (node : Node) :
    (NodeService.getNodeInfo s fuel node).2 = s := by
  unfold NodeService.getNodeInfo
  have hs := rootWalk_snd s fuel node
  cases hw : NodeService.rootWalk s fuel node with
  | mk a b =>
    rw [hw] at hs
    cases a <;> simpa using hs

theorem bfs_snd (s : Store) (fuel : Nat) (queue : List Nat) (acc : List NodeInfo) :
    (NodeService.bfs s fuel queue acc).2 = s := by
  induction fuel generalizing queue acc with
  | zero => rfl
  | succ n ih =>
    unfold NodeService.bfs
    cases queue with
    | nil => rfl
    | cons qid rest =>
      cases hf : findNode s qid with
      | none => simp [NodeRepository.getNode, hf]
      | some r =>
        simp only [NodeRepository.getNode, hf]
        have hs := getNodeInfo_snd s (NodeService.chainFuel s) ⟨qid, r.parent, r.children⟩
        cases hw : NodeService.getNodeInfo s (NodeService.chainFuel s) ⟨qid, r.parent, r.children⟩ with
        | mk a b =>
          rw [hw] at hs
          subst hs
          cases a with
          | error e => simp
          | ok info => simpa using ih (rest ++ r.children) (acc ++ [info])

/-- C10: `getDescendants` is a pure observer: on every store and every id,
whether it returns a descendant list or an error, the store after the
call is exactly the store before it. -/
theorem getDescendants_pure (s : Store) (id : Nat) :
    (NodeService.getDescendants s id).2 = s := by
  unfold NodeService.getDescendants
  cases hf : findNode s id with
  | none => simp [NodeRepository.getNode, hf]
  | some r =>
    simp only [NodeRepository.getNode, hf]
    exact bfs_snd s (NodeService.bfsFuel s) r.children []

/-- C8: service `setParent` with equal node and parent ids fails with
`InvalidArgumentError` on every store, leaving it unchanged; the guard
runs before any store access, so this holds even when the id is not in
the store at all. -/
theorem setParent_self_invalidArgument (s : Store) (nodeId : Nat) :
    NodeService.setParent s nodeId nodeId = (.error .invalidArgument, s) := by
  simp [NodeService.setParent]

/-- Store with a root (id 0) and one child (id 1), used as the failing
input for the atomicity claim. -/
def rootChildStore : Store := ⟨[(0, ⟨none, [1]⟩), (1, ⟨some 0, []⟩)], 2⟩

/-- C1: evaluation of the repository at the failing inputs.  Store
`setParent(1, 5)` with nonexistent new parent 5 rejects with
`NotFoundError`, yet node 1 has already been removed from the old
parent's children list; store `addNode(7)` with nonexistent parent 7
rejects with `NotFoundError`, yet the freshly created node stays
persisted and the node count grows from 2 to 3. -/
theorem setParent_and_addNode_not_atomic :
    (NodeRepository.setParent rootChildStore 1 5).1 = .error .notFound ∧
    childrenOf rootChildStore 0 = [1] ∧
    childrenOf (NodeRepository.setParent rootChildStore 1 5).2 0 = [] ∧
    parentOfRec (NodeRepository.setParent rootChildStore 1 5).2 1 = some (some 0) ∧
    (NodeRepository.addNode rootChildStore (some 7)).1 = .error .notFound ∧
    (NodeRepository.getNodeCount rootChildStore).1 = 2 ∧
    (NodeRepository.getNodeCount (NodeRepository.addNode rootChildStore (some 7)).2).1 = 3 := by
  decide

/-- C6 (store half): on every store, `setParent` on a node whose record
has no parent fails with `InvalidStructureError` before any mutation. -/
theorem repo_setParent_on_root {s : Store} {rootId : Nat} {rec : NodeRec}
    (anyId : Nat) (h1 : findNode s rootId = some rec) (h2 : rec.parent = none) :
    NodeRepository.setParent s rootId anyId = (.error .invalidStructure, s) := by
  unfold NodeRepository.setParent
  rw [h1]
  simp only [h2]

/-- C6 (counterexample to the service half as stated): with root 0 and
child 1, the service call `setParent(0, 0)` rejects with
`InvalidArgumentError`, not `InvalidStructureError`: the self-parent
guard fires before the root check can. -/
theorem service_setParent_root_self_not_invalidStructure :
    (NodeService.setParent rootChildStore 0 0).1 = .error .invalidArgument ∧
    (NodeService.setParent rootChildStore 0 0).1 ≠ .error .invalidStructure := by
  decide

/-! Lemmas for the single-root guard. -/

theorem updateList_of_not_mem {l : List (Nat × NodeRec)} {id : Nat} (r : NodeRec)
    (h : id ∉ l.map Prod.fst) : updateList l id r = l := by
  induction l with
  | nil => rfl
  | cons p rest ih =>
    simp only [List.map_cons, List.mem_cons, not_or] at h
    simp only [updateList, Ne.symm h.1, if_neg, not_false_iff]
    rw [ih h.2]

theorem countP_updateList_parent_eq {l : List (Nat × NodeRec)} {id : Nat} {r₀ : NodeRec}
    (r : NodeRec) (hnd : (l.map Prod.fst).Nodup) (h : lookupRec l id = some r₀)
    (hp : r.parent = r₀.parent) :
    (updateList l id r).countP (fun p => p.2.parent.isNone) =
      l.countP (fun p => p.2.parent.isNone) := by
  induction l with
  | nil => rfl
  | cons q rest ih =>
    simp only [List.map_cons, List.nodup_cons] at hnd
    by_cases hq : q.1 = id
    · simp only [lookupRec, hq, if_true, eq_self_iff_true, Option.some.injEq] at h
      have hrest : updateList rest id r = rest :=
      updateList_of_not_mem r (by rw [← hq]; exact hnd.1)
      simp only [updateList, hq, if_true, eq_self_iff_true, hrest]
      rw [List.countP_cons, List.countP_cons, hp, ← h]
    · simp only [lookupRec, hq, if_false] at h
      simp only [updateList, hq, if_false]
      rw [List.countP_cons, List.countP_cons, ih hnd.2 h]

theorem rootCount_updateRec {s : Store} {id : Nat} {r₀ : NodeRec} (r : NodeRec)
    (hnd : keysNodup s) (h : findNode s id = some r₀) (hp : r.parent = r₀.parent) :
    rootCount (updateRec s id r) = rootCount s :=
  countP_updateList_parent_eq r hnd h hp

/-- Store after a service `addNode` call: unchanged when the
duplicate-root guard fires, otherwise the repository's outcome (the
`NodeInfo` derivation reads but never writes). -/
theorem service_addNode_snd (s : Store) (parentId : Option Nat) :
    (NodeService.addNode s parentId).2 =
      if parentId = none ∧ 0 < s.nodes.length then s
      else (NodeRepository.addNode s parentId).2 := by
  by_cases hc : parentId = none ∧ 0 < s.nodes.length
  · rw [if_pos hc]
    unfold NodeService.addNode
    rw [if_pos (by simpa [NodeRepository.getNodeCount] using hc)]
  · rw [if_neg hc]
    unfold NodeService.addNode
    rw [if_neg (by simpa [NodeRepository.getNodeCount] using hc)]
    cases ha : NodeRepository.addNode s parentId with
    | mk res s' =>
      cases res with
      | error e => rfl
      | ok node => exact getNodeInfo_snd s' (NodeService.chainFuel s') node

/-- Service `addNode` without a parent on the empty store: creates the
root and derives its `NodeInfo` (depth 0, root itself). -/
theorem service_addNode_root_empty (s : Store) (h : s.nodes = []) :
    NodeService.addNode s none =
      (.ok ⟨s.next, none, 0, s.next⟩, ⟨[(s.next, ⟨none, []⟩)], s.next + 1⟩) := by
  unfold NodeService.addNode
  rw [if_neg (by simp [NodeRepository.getNodeCount, h])]
  unfold NodeRepository.addNode
  simp [h, NodeService.getNodeInfo, NodeService.rootWalk]

/-- C3: the duplicate-root guard of service `addNode` fires exactly when
the store is nonempty; on the empty store the call creates the root and
returns its `NodeInfo`; and every `addNode` call (with or without a
parent) keeps the number of parentless nodes at most one, so along any
sequence of service creates at most one node has no parent. -/
theorem addNode_single_root (s : Store) :
    ((NodeService.addNode s none).1 = .error .duplicateRoot ↔ 0 < s.nodes.length) ∧
    (s.nodes = [] →
      NodeService.addNode s none =
        (.ok ⟨s.next, none, 0, s.next⟩, ⟨[(s.next, ⟨none, []⟩)], s.next + 1⟩)) ∧
    (∀ parentId, keysNodup s → boundedKeys s → rootCount s ≤ 1 →
      keysNodup (NodeService.addNode s parentId).2 ∧
      boundedKeys (NodeService.addNode s parentId).2 ∧
      rootCount (NodeService.addNode s parentId).2 ≤ 1) := by
  refine ⟨?_, service_addNode_root_empty s, ?_⟩
  · by_cases hl : 0 < s.nodes.length
    · unfold NodeService.addNode
      rw [if_pos ⟨rfl, by simpa [NodeRepository.getNodeCount] using hl⟩]
      simpa using hl
    · have h0 : s.nodes = [] := List.length_eq_zero.mp (Nat.eq_zero_of_not_pos hl)
      rw [service_addNode_root_empty s h0]
      simp [h0]
  · intro parentId hnd hbk hrc
    cases parentId with
    | none =>
      by_cases hl : 0 < s.nodes.length
      · have : (NodeService.addNode s none).2 = s := by
          rw [service_addNode_snd]
          simp [hl]
        rw [this]
        exact ⟨hnd, hbk, hrc⟩
      · have h0 : s.nodes = [] := List.length_eq_zero.mp (Nat.eq_zero_of_not_pos hl)
        rw [service_addNode_root_empty s h0]
        refine ⟨by simp [keysNodup, keys], ?_, by simp [rootCount]⟩
        intro p hp
        simp only [List.mem_singleton] at hp
        subst hp
        exact Nat.lt_succ_self _
    | some pid =>
      have hsnd : (NodeService.addNode s (some pid)).2 =
          (NodeRepository.addNode s (some pid)).2 := by
        rw [service_addNode_snd]
        simp
      rw [hsnd]
      set s1 : Store := ⟨s.nodes ++ [(s.next, ⟨some pid, []⟩)], s.next + 1⟩ with hs1
      have hnd1 : keysNodup s1 := by
        have hnotmem : s.next ∉ keys s := fun hmem => by
          obtain ⟨r, hr⟩ := findNode_of_mem_keys hmem
          exact absurd (hbk _ (findNode_mem hr)) (lt_irrefl _)
        simp only [keysNodup, keys, hs1, List.map_append, List.map_cons, List.map_nil]
        refine List.Nodup.append hnd (List.nodup_singleton _) ?_
        intro a ha hb
        simp only [List.mem_singleton] at hb
        subst hb
        exact hnotmem ha
      have hbk1 : boundedKeys s1 := by
        intro p hp
        simp only [hs1, List.mem_append, List.mem_singleton] at hp
        rcases hp with hp | hp
        · exact Nat.lt_succ_of_lt (hbk _ hp)
        · subst hp
          exact Nat.lt_succ_self _
      have hrc1 : rootCount s1 = rootCount s := by
        simp [rootCount, hs1, List.countP_append, List.countP_cons]
      unfold NodeRepository.addNode
      simp only
      cases hf : findNode s1 pid with
      | none => exact ⟨hnd1, hbk1, by rw [hrc1]; exact hrc⟩
      | some prec =>
        refine ⟨?_, ?_, ?_⟩
        · show keysNodup (updateRec s1 pid ⟨prec.parent, prec.children ++ [s.next]⟩)
          have := keys_updateRec s1 pid ⟨prec.parent, prec.children ++ [s.next]⟩
          simpa [keysNodup, this] using hnd1
        · show boundedKeys (updateRec s1 pid ⟨prec.parent, prec.children ++ [s.next]⟩)
          intro p hp
          have hk : p.1 ∈ keys (updateRec s1 pid ⟨prec.parent, prec.children ++ [s.next]⟩) := by
            simp only [keys, List.mem_map]
            exact ⟨p, hp, rfl⟩
          rw [keys_updateRec] at hk
          obtain ⟨q, hq, hq1⟩ := by simpa only [keys, List.mem_map] using hk
          rw [next_updateRec, ← hq1]
          exact hbk1 q hq
        · show rootCount (updateRec s1 pid ⟨prec.parent, prec.children ++ [s.next]⟩) ≤ 1
          rw [rootCount_updateRec ⟨prec.parent, prec.children ++ [s.next]⟩ hnd1 hf rfl,
            hrc1]
          exact hrc

/-- C3 witness: the guard and the preservation discharged on the
two-node root/child store and on the empty store. -/
theorem addNode_single_root_witness :
    ((NodeService.addNode rootChildStore none).1 = .error .duplicateRoot ↔
      0 < rootChildStore.nodes.length) ∧
    rootCount (NodeService.addNode rootChildStore (some 0)).2 ≤ 1 ∧
    (NodeService.addNode ⟨[], 0⟩ none =
      (.ok ⟨0, none, 0, 0⟩, ⟨[(0, ⟨none, []⟩)], 1⟩)) :=
  ⟨(addNode_single_root rootChildStore).1,
   ((addNode_single_root rootChildStore).2.2 (some 0) (by decide) (by decide)
      (by decide)).2.2,
   (addNode_single_root ⟨[], 0⟩).2.1 rfl⟩

/-! Parent-chain lemmas. -/

theorem chase_findNode {s : Store} {f id : Nat} {v : Nat × Nat}
    (h : chase s f id = some v) : ∃ r, findNode s id = some r := by
  unfold chase at h
  cases hr : findNode s id with
  | none => rw [hr] at h; exact absurd h (by simp)
  | some r => exact ⟨r, rfl⟩

theorem chase_of_parent_none {s : Store} {id : Nat} {r : NodeRec} (f : Nat)
    (hr : findNode s id = some r) (hp : r.parent = none) :
    chase s f id = some (0, id) := by
  unfold chase
  rw [hr]
  simp [hp]

theorem chase_succ_of_parent {s : Store} {id p : Nat} {r : NodeRec} (f : Nat)
    (hr : findNode s id = some r) (hp : r.parent = some p) :
    chase s (f + 1) id = (chase s f p).map (fun dr => (dr.1 + 1, dr.2)) := by
  conv_lhs => unfold chase
  rw [hr]
  simp [hp]

theorem chase_zero_of_parent {s : Store} {id p : Nat} {r : NodeRec}
    (hr : findNode s id = some r) (hp : r.parent = some p) :
    chase s 0 id = none := by
  unfold chase
  rw [hr]
  simp [hp]

theorem chase_mono {s : Store} {f f' id : Nat} {v : Nat × Nat} (hle : f ≤ f')
    (h : chase s f id = some v) : chase s f' id = some v := by
  induction f generalizing f' id v with
  | zero =>
    obtain ⟨r, hr⟩ := chase_findNode h
    cases hp : r.parent with
    | none =>
      rw [chase_of_parent_none f' hr hp]
      rw [chase_of_parent_none 0 hr hp] at h
      exact h
    | some p => rw [chase_zero_of_parent hr hp] at h; exact absurd h (by simp)
  | succ n ih =>
    obtain ⟨r, hr⟩ := chase_findNode h
    cases hp : r.parent with
    | none =>
      rw [chase_of_parent_none f' hr hp]
      rw [chase_of_parent_none (n + 1) hr hp] at h
      exact h
    | some p =>
      rw [chase_succ_of_parent n hr hp] at h
      obtain ⟨w, hw, hv⟩ := Option.map_eq_some'.mp h
      obtain ⟨m, rfl⟩ : ∃ m, f' = m + 1 :=
        ⟨f' - 1, by omega⟩
      rw [chase_succ_of_parent m hr hp, ih (by omega) hw]
      simpa using hv

theorem chase_root_parentless {s : Store} {f id : Nat} {d rt : Nat}
    (h : chase s f id = some (d, rt)) :
    ∃ rrec, findNode s rt = some rrec ∧ rrec.parent = none := by
  induction f generalizing id d with
  | zero =>
    obtain ⟨r, hr⟩ := chase_findNode h
    cases hp : r.parent with
    | none =>
      rw [chase_of_parent_none 0 hr hp] at h
      obtain ⟨rfl, rfl⟩ : d = 0 ∧ rt = id := by
        constructor <;> [exact (Prod.mk.injEq _ _ _ _ ▸ (Option.some.injEq _ _ ▸ h :)).1.symm;
          exact (Prod.mk.injEq _ _ _ _ ▸ (Option.some.injEq _ _ ▸ h :)).2.symm]
      exact ⟨r, hr, hp⟩
    | some p => rw [chase_zero_of_parent hr hp] at h; exact absurd h (by simp)
  | succ n ih =>
    obtain ⟨r, hr⟩ := chase_findNode h
    cases hp : r.parent with
    | none =>
      rw [chase_of_parent_none (n + 1) hr hp] at h
      have : d = 0 ∧ rt = id := by
        have := Option.some.injEq _ _ ▸ h
        exact ⟨congrArg Prod.fst this |>.symm, congrArg Prod.snd this |>.symm⟩
      exact this.2 ▸ ⟨r, hr, hp⟩
    | some p =>
      rw [chase_succ_of_parent n hr hp] at h
      obtain ⟨w, hw, hv⟩ := Option.map_eq_some'.mp h
      obtain ⟨d', rt'⟩ := w
      have hrt : rt' = rt := congrArg Prod.snd hv
      subst hrt
      exact ih hw

theorem chase_none_of_self_parent {s : Store} {id : Nat}
    (h : parentOfRec s id = some (some id)) : ∀ f, chase s f id = none := by
  intro f
  obtain ⟨r, hr, hp⟩ : ∃ r, findNode s id = some r ∧ r.parent = some id := by
    unfold parentOfRec at h
    cases hf : findNode s id with
    | none => rw [hf] at h; exact absurd h (by simp)
    | some r =>
      rw [hf] at h
      exact ⟨r, rfl, by simpa using h⟩
  induction f with
  | zero => exact chase_zero_of_parent hr hp
  | succ n ih => rw [chase_succ_of_parent n hr hp, ih]; rfl

theorem no_self_parent {s : Store} {id : Nat}
    (hterm : (chase s s.nodes.length id).isSome = true) :
    parentOfRec s id ≠ some (some id) := by
  intro hcon
  rw [chase_none_of_self_parent hcon] at hterm
  simp at hterm

/-- Depth recurrence along an edge, on any store whose chains reach
roots: a node with a parent sits one step deeper, with the same root. -/
theorem chase_parent_step {s : Store} {id p : Nat} {r : NodeRec}
    (hr : findNode s id = some r) (hp : r.parent = some p)
    (hterm : (chase s s.nodes.length id).isSome = true) :
    ∃ w, chase s s.nodes.length p = some w ∧
      chase s s.nodes.length id = some (w.1 + 1, w.2) := by
  obtain ⟨v, hv⟩ := Option.isSome_iff_exists.mp hterm
  have hlen : 0 < s.nodes.length := List.length_pos.mpr (by
    intro hnil
    rw [findNode, hnil] at hr
    simp [lookupRec] at hr)
  obtain ⟨n, hn⟩ : ∃ n, s.nodes.length = n + 1 := ⟨s.nodes.length - 1, by omega⟩
  rw [hn, chase_succ_of_parent n hr hp] at hv
  obtain ⟨w, hw, hvw⟩ := Option.map_eq_some'.mp hv
  refine ⟨w, chase_mono (by omega) hw, ?_⟩
  rw [hn, chase_succ_of_parent n hr hp, hw]
  simp [← hvw]

theorem rootWalk_eq_chase {s : Store} {f id : Nat} {r : NodeRec} {v : Nat × Nat}
    (cs : List Nat) (hr : findNode s id = some r) (hc : chase s f id = some v) :
    NodeService.rootWalk s f ⟨id, r.parent, cs⟩ = (.ok v, s) := by
  induction f generalizing id r v cs with
  | zero =>
    cases hp : r.parent with
    | none =>
      rw [chase_of_parent_none 0 hr hp] at hc
      obtain rfl : v = (0, id) := by simpa using hc.symm
      unfold NodeService.rootWalk
      simp [hp]
    | some p =>
      rw [chase_zero_of_parent hr hp] at hc
      exact absurd hc (by simp)
  | succ n ih =>
    cases hp : r.parent with
    | none =>
      rw [chase_of_parent_none (n + 1) hr hp] at hc
      obtain rfl : v = (0, id) := by simpa using hc.symm
      unfold NodeService.rootWalk
      simp [hp]
    | some p =>
      rw [chase_succ_of_parent n hr hp] at hc
      obtain ⟨w, hw, hv⟩ := Option.map_eq_some'.mp hc
      obtain ⟨pr, hpr⟩ := chase_findNode hw
      unfold NodeService.rootWalk
      simp only [hp, getNode_fst_ok hpr, ih pr.children hpr hw, ← hv]

theorem infoOf_eq {s : Store} {id : Nat} {r : NodeRec} {v : Nat × Nat}
    (hr : findNode s id = some r) (hc : chase s s.nodes.length id = some v) :
    infoOf s id = ⟨id, r.parent, v.1, v.2⟩ := by
  unfold infoOf
  rw [hr, hc]

theorem infoOf_id (s : Store) (id : Nat) : (infoOf s id).id = id := by
  unfold infoOf
  cases findNode s id <;> cases chase s s.nodes.length id <;> rfl

theorem getNodeInfo_eq {s : Store} {id : Nat} {r : NodeRec} (cs : List Nat)
    (hr : findNode s id = some r)
    (hterm : (chase s s.nodes.length id).isSome = true) :
    NodeService.getNodeInfo s (NodeService.chainFuel s) ⟨id, r.parent, cs⟩ =
      (.ok (infoOf s id), s) := by
  obtain ⟨v, hv⟩ := Option.isSome_iff_exists.mp hterm
  unfold NodeService.getNodeInfo
  rw [show NodeService.chainFuel s = s.nodes.length from rfl,
    rootWalk_eq_chase cs hr hv, infoOf_eq hr hv]

theorem parentless_unique {l : List (Nat × NodeRec)}
    (h : l.countP (fun p => p.2.parent.isNone) ≤ 1) {a b : Nat × NodeRec}
    (ha : a ∈ l) (hb : b ∈ l) (hpa : a.2.parent = none) (hpb : b.2.parent = none) :
    a = b := by
  induction l with
  | nil => cases ha
  | cons x xs ih =>
    rcases List.mem_cons.mp ha with rfl | ha₂ <;>
      rcases List.mem_cons.mp hb with rfl | hb₂
    · rfl
    · exfalso
      rw [List.countP_cons] at h
      simp only [hpa, Option.isNone_none, if_true] at h
      have : 0 < xs.countP (fun p => p.2.parent.isNone) :=
        List.countP_pos_iff.mpr ⟨b, hb₂, by simp [hpb]⟩
      omega
    · exfalso
      rw [List.countP_cons] at h
      simp only [hpb, Option.isNone_none, if_true] at h
      have : 0 < xs.countP (fun p => p.2.parent.isNone) :=
        List.countP_pos_iff.mpr ⟨a, ha₂, by simp [hpa]⟩
      omega
    · refine ih ?_ ha₂ hb₂
      rw [List.countP_cons] at h
      omega

/-- C5: on a store satisfying the tree invariant, the `NodeInfo` the
service computes for a stored node has the specified depth (0 for the
parentless node, one more than its parent's depth otherwise) and its
root is the unique parentless node reached along the parent chain. -/
theorem nodeInfo_depth_root_correct (s : Store) (hInv : Inv s) {n : Nat} {rec : NodeRec}
    (hr : findNode s n = some rec) :
    ∃ info,
      NodeService.getNodeInfo s (NodeService.chainFuel s) ⟨n, rec.parent, rec.children⟩
        = (.ok info, s) ∧
      info.id = n ∧ info.parent = rec.parent ∧
      (rec.parent = none → info.depth = 0 ∧ info.root = n) ∧
      (∀ p, rec.parent = some p → ∃ prec pinfo, findNode s p = some prec ∧
        NodeService.getNodeInfo s (NodeService.chainFuel s) ⟨p, prec.parent, prec.children⟩
          = (.ok pinfo, s) ∧
        info.depth = pinfo.depth + 1 ∧ info.root = pinfo.root) ∧
      (∃ rrec, findNode s info.root = some rrec ∧ rrec.parent = none) ∧
      (∀ m mrec, findNode s m = some mrec → mrec.parent = none → m = info.root) := by
  obtain ⟨hnd, hbk, hbp, hcp, hcn, hpl, hct, hrc⟩ := hInv
  have hterm := hct _ (findNode_mem hr)
  obtain ⟨v, hv⟩ := Option.isSome_iff_exists.mp hterm
  refine ⟨infoOf s n, getNodeInfo_eq rec.children hr hterm, infoOf_id s n, ?_, ?_, ?_, ?_, ?_⟩
  · rw [infoOf_eq hr hv]
  · intro hpnone
    have h0 : chase s s.nodes.length n = some (0, n) :=
      chase_of_parent_none _ hr hpnone
    obtain rfl : v = (0, n) := by rw [hv] at h0; simpa using h0
    rw [infoOf_eq hr hv]
    exact ⟨rfl, rfl⟩
  · intro p hp
    obtain ⟨w, hw, hid⟩ := chase_parent_step hr hp hterm
    obtain rfl : v = (w.1 + 1, w.2) := by rw [hv] at hid; simpa using hid
    obtain ⟨prec, hprec⟩ := chase_findNode hw
    have hptermp : (chase s s.nodes.length p).isSome = true := by rw [hw]; rfl
    refine ⟨prec, infoOf s p, hprec, getNodeInfo_eq prec.children hprec hptermp, ?_, ?_⟩
    · rw [infoOf_eq hr hv, infoOf_eq hprec hw]
    · rw [infoOf_eq hr hv, infoOf_eq hprec hw]
  · obtain ⟨d, rt⟩ := v
    obtain ⟨rrec, hrt, hrtp⟩ := chase_root_parentless hv
    rw [infoOf_eq hr hv]
    exact ⟨rrec, hrt, hrtp⟩
  · intro m mrec hm hmp
    obtain ⟨d, rt⟩ := v
    obtain ⟨rrec, hrt, hrtp⟩ := chase_root_parentless hv
    rw [infoOf_eq hr hv]
    have := parentless_unique hrc (findNode_mem hm) (findNode_mem hrt) hmp hrtp
    exact congrArg Prod.fst this

/-- C5 witness: the depth and root conjuncts instantiated on the
four-node breadth-first example store at the grandchild node 3. -/
theorem nodeInfo_depth_root_correct_witness :
    ∃ info,
      NodeService.getNodeInfo
          ⟨[(0, ⟨none, [1, 2]⟩), (1, ⟨some 0, [3]⟩), (2, ⟨some 0, []⟩), (3, ⟨some 1, []⟩)], 4⟩
          (NodeService.chainFuel
            ⟨[(0, ⟨none, [1, 2]⟩), (1, ⟨some 0, [3]⟩), (2, ⟨some 0, []⟩), (3, ⟨some 1, []⟩)], 4⟩)
          ⟨3, (⟨some 1, []⟩ : NodeRec).parent, (⟨some 1, []⟩ : NodeRec).children⟩
        = (.ok info,
          ⟨[(0, ⟨none, [1, 2]⟩), (1, ⟨some 0, [3]⟩), (2, ⟨some 0, []⟩), (3, ⟨some 1, []⟩)], 4⟩) ∧
      info.id = 3 ∧ info.parent = (⟨some 1, []⟩ : NodeRec).parent ∧
      ((⟨some 1, []⟩ : NodeRec).parent = none → info.depth = 0 ∧ info.root = 3) ∧
      (∀ p, (⟨some 1, []⟩ : NodeRec).parent = some p → ∃ prec pinfo,
        findNode ⟨[(0, ⟨none, [1, 2]⟩), (1, ⟨some 0, [3]⟩), (2, ⟨some 0, []⟩), (3, ⟨some 1, []⟩)], 4⟩ p
          = some prec ∧
        NodeService.getNodeInfo
            ⟨[(0, ⟨none, [1, 2]⟩), (1, ⟨some 0, [3]⟩), (2, ⟨some 0, []⟩), (3, ⟨some 1, []⟩)], 4⟩
            (NodeService.chainFuel
              ⟨[(0, ⟨none, [1, 2]⟩), (1, ⟨some 0, [3]⟩), (2, ⟨some 0, []⟩), (3, ⟨some 1, []⟩)], 4⟩)
            ⟨p, prec.parent, prec.children⟩
          = (.ok pinfo,
            ⟨[(0, ⟨none, [1, 2]⟩), (1, ⟨some 0, [3]⟩), (2, ⟨some 0, []⟩), (3, ⟨some 1, []⟩)], 4⟩) ∧
        info.depth = pinfo.depth + 1 ∧ info.root = pinfo.root) ∧
      (∃ rrec,
        findNode ⟨[(0, ⟨none, [1, 2]⟩), (1, ⟨some 0, [3]⟩), (2, ⟨some 0, []⟩), (3, ⟨some 1, []⟩)], 4⟩
          info.root = some rrec ∧ rrec.parent = none) ∧
      (∀ m mrec,
        findNode ⟨[(0, ⟨none, [1, 2]⟩), (1, ⟨some 0, [3]⟩), (2, ⟨some 0, []⟩), (3, ⟨some 1, []⟩)], 4⟩
          m = some mrec → mrec.parent = none → m = info.root) :=
  nodeInfo_depth_root_correct
    ⟨[(0, ⟨none, [1, 2]⟩), (1, ⟨some 0, [3]⟩), (2, ⟨some 0, []⟩), (3, ⟨some 1, []⟩)], 4⟩
    (by decide) (by decide)

/-! Breadth-first traversal lemmas. -/

theorem childrenOf_eq {s : Store} {x : Nat} {xr : NodeRec} (hx : findNode s x = some xr) :
    childrenOf s x = xr.children := by
  unfold childrenOf
  rw [hx]

/-- Queue of stored nodes all at the same depth. -/
def Frontier (s : Store) (d : Nat) (F : List Nat) : Prop :=
  ∀ x ∈ F, x ∈ keys s ∧ depthOf s x = some d

def depthGE (s : Store) (d : Nat) (id : Nat) : Bool :=
  match depthOf s id with
  | none => false
  | some dx => decide (d ≤ dx)

def depthEQ (s : Store) (d : Nat) (id : Nat) : Bool :=
  match depthOf s id with
  | none => false
  | some dx => decide (dx = d)

/-- Number of stored nodes of depth at least `d`. -/
def countGE (s : Store) (d : Nat) : Nat := s.nodes.countP (fun p => depthGE s d p.1)

/-- Number of stored nodes of depth exactly `d`. -/
def countEQ (s : Store) (d : Nat) : Nat := s.nodes.countP (fun p => depthEQ s d p.1)

theorem child_facts {s : Store} (hcp : childrenPoint s) (hct : chainTerminates s)
    {x : Nat} {xr : NodeRec} (hx : findNode s x = some xr) {c : Nat} (hc : c ∈ xr.children) :
    ∃ crec, findNode s c = some crec ∧ crec.parent = some x ∧
      ∀ dx rt, chase s s.nodes.length x = some (dx, rt) →
        chase s s.nodes.length c = some (dx + 1, rt) := by
  have hpr := hcp _ (findNode_mem hx) c hc
  obtain ⟨crec, hcrec, hcp'⟩ : ∃ crec, findNode s c = some crec ∧ crec.parent = some x := by
    unfold parentOfRec at hpr
    cases hf : findNode s c with
    | none => rw [hf] at hpr; exact absurd hpr (by simp)
    | some crec =>
      rw [hf] at hpr
      exact ⟨crec, rfl, by simpa using hpr⟩
  refine ⟨crec, hcrec, hcp', ?_⟩
  intro dx rt hchx
  have htermc := hct _ (findNode_mem hcrec)
  obtain ⟨w, hw, hstep⟩ := chase_parent_step hcrec hcp' htermc
  rw [hchx] at hw
  obtain rfl : w = (dx, rt) := by simpa using hw.symm
  exact hstep

theorem child_unique_parent {s : Store} (hcp : childrenPoint s)
    {y₁ y₂ : Nat} {r₁ r₂ : NodeRec} (h₁ : findNode s y₁ = some r₁)
    (h₂ : findNode s y₂ = some r₂) {c : Nat} (hc₁ : c ∈ r₁.children)
    (hc₂ : c ∈ r₂.children) : y₁ = y₂ := by
  have e₁ := hcp _ (findNode_mem h₁) c hc₁
  have e₂ := hcp _ (findNode_mem h₂) c hc₂
  rw [e₁] at e₂
  simpa using e₂

theorem frontier_step {s : Store} (hInv : Inv s) {d : Nat} {F : List Nat}
    (hF : Frontier s d F) :
    Frontier s (d + 1) ((F.map (childrenOf s)).flatten) ∧
    (F.Nodup → ((F.map (childrenOf s)).flatten).Nodup) := by
  obtain ⟨hnd, hbk, hbp, hcp, hcn, hpl, hct, hrc⟩ := hInv
  constructor
  · intro c hcmem
    obtain ⟨l, hl, hcl⟩ := List.mem_flatten.mp hcmem
    obtain ⟨y, hy, rfl⟩ := List.mem_map.mp hl
    obtain ⟨hykey, hyd⟩ := hF y hy
    obtain ⟨yr, hyr⟩ := findNode_of_mem_keys hykey
    rw [childrenOf_eq hyr] at hcl
    obtain ⟨crec, hcrec, _hcpar, hdep⟩ := child_facts hcp hct hyr hcl
    obtain ⟨⟨dy, rt⟩, hchy⟩ := Option.isSome_iff_exists.mp (hct _ (findNode_mem hyr))
    have hdy : dy = d := by
      unfold depthOf at hyd
      rw [hchy] at hyd
      simpa using hyd
    refine ⟨mem_keys_of_findNode hcrec, ?_⟩
    unfold depthOf
    rw [hdep dy rt hchy]
    simp [hdy]
  · intro hndF
    rw [List.nodup_flatten]
    constructor
    · intro l hl
      obtain ⟨y, hy, rfl⟩ := List.mem_map.mp hl
      obtain ⟨yr, hyr⟩ := findNode_of_mem_keys (hF y hy).1
      rw [childrenOf_eq hyr]
      exact hcn _ (findNode_mem hyr)
    · rw [List.pairwise_map]
      refine List.Pairwise.imp_of_mem ?_ hndF
      intro y₁ y₂ hy₁ hy₂ hne
      intro c hc₁ hc₂
      obtain ⟨r₁, hr₁⟩ := findNode_of_mem_keys (hF y₁ hy₁).1
      obtain ⟨r₂, hr₂⟩ := findNode_of_mem_keys (hF y₂ hy₂).1
      rw [childrenOf_eq hr₁] at hc₁
      rw [childrenOf_eq hr₂] at hc₂
      exact absurd (child_unique_parent hcp hr₁ hr₂ hc₁ hc₂) hne

theorem depthGE_or (s : Store) (d x : Nat) :
    depthGE s d x = (depthEQ s d x || depthGE s (d + 1) x) := by
  unfold depthGE depthEQ
  cases depthOf s x with
  | none => rfl
  | some dx =>
    by_cases h1 : d ≤ dx <;> by_cases h2 : dx = d <;>
      simp [h1, h2] <;> omega

theorem countP_split {α : Type} (l : List α) (p q : α → Bool)
    (h : ∀ a ∈ l, ¬(p a = true ∧ q a = true)) :
    l.countP (fun a => p a || q a) = l.countP p + l.countP q := by
  induction l with
  | nil => rfl
  | cons x xs ih =>
    rw [List.countP_cons, List.countP_cons, List.countP_cons,
      ih (fun a ha => h a (List.mem_cons_of_mem _ ha))]
    have := h x (List.mem_cons_self _ _)
    cases hp : p x <;> cases hq : q x <;> simp_all <;> omega

theorem countGE_succ (s : Store) (d : Nat) :
    countGE s d = countEQ s d + countGE s (d + 1) := by
  unfold countGE countEQ
  rw [List.countP_congr (fun x _ => by rw [depthGE_or s d x.1])]
  refine countP_split _ _ _ ?_
  intro a _
  unfold depthEQ depthGE
  cases depthOf s a.1 with
  | none => simp
  | some dx =>
    simp only [decide_eq_true_eq]
    omega

theorem frontier_le_countEQ {s : Store} {d : Nat} {F : List Nat}
    (hF : Frontier s d F) (hnd : F.Nodup) : F.length ≤ countEQ s d := by
  have hsub : F ⊆ (s.nodes.filter (fun p => depthEQ s d p.1)).map Prod.fst := by
    intro x hx
    obtain ⟨hxkey, hxd⟩ := hF x hx
    obtain ⟨r, hr⟩ := findNode_of_mem_keys hxkey
    refine List.mem_map.mpr ⟨(x, r), ?_, rfl⟩
    refine List.mem_filter.mpr ⟨findNode_mem hr, ?_⟩
    unfold depthEQ
    rw [show depthOf s (x, r).1 = some d from hxd]
    simp
  calc F.length
      ≤ ((s.nodes.filter (fun p => depthEQ s d p.1)).map Prod.fst).length :=
        (hnd.subperm hsub).length_le
    _ = countEQ s d := by
        rw [List.length_map, ← List.countP_eq_length_filter]
        rfl

theorem countGE_le_length (s : Store) (d : Nat) : countGE s d ≤ s.nodes.length := by
  unfold countGE
  exact List.countP_le_length _

theorem levels_nil (s : Store) (g : Nat) : levels s g [] = [] := by
  cases g <;> rfl

theorem levels_succ_of_ne_nil {s : Store} {F : List Nat} (g : Nat) (h : F ≠ []) :
    levels s (g + 1) F = F ++ levels s g ((F.map (childrenOf s)).flatten) := by
  cases F with
  | nil => exact absurd rfl h
  | cons q rest => rfl

theorem bfs_step {s : Store} {q : Nat} {qrec : NodeRec} (m : Nat) (L : List Nat)
    (acc : List NodeInfo) (hq : findNode s q = some qrec)
    (hterm : (chase s s.nodes.length q).isSome = true) :
    NodeService.bfs s (m + 1) (q :: L) acc =
      NodeService.bfs s m (L ++ qrec.children) (acc ++ [infoOf s q]) := by
  simp only [NodeService.bfs, getNode_fst_ok hq, getNodeInfo_eq qrec.children hq hterm]

theorem bfs_segment {s : Store} (hInv : Inv s) :
    ∀ (Q1 : List Nat), (∀ x ∈ Q1, x ∈ keys s) →
    ∀ (Q2 : List Nat) (acc : List NodeInfo) (f : Nat),
    NodeService.bfs s (f + Q1.length) (Q1 ++ Q2) acc =
      NodeService.bfs s f (Q2 ++ (Q1.map (childrenOf s)).flatten)
        (acc ++ Q1.map (infoOf s)) := by
  intro Q1
  induction Q1 with
  | nil => intro _ Q2 acc f; simp
  | cons q rest ih =>
    intro hkeys Q2 acc f
    obtain ⟨qrec, hqrec⟩ := findNode_of_mem_keys (hkeys q (List.mem_cons_self _ _))
    have hterm : (chase s s.nodes.length q).isSome = true :=
      hInv.2.2.2.2.2.2.1 _ (findNode_mem hqrec)
    have hfe : f + (q :: rest).length = (f + rest.length) + 1 := by
      simp [List.length_cons]
      omega
    rw [hfe, List.cons_append, bfs_step (f + rest.length) (rest ++ Q2) acc hqrec hterm,
      List.append_assoc, ih (fun x hx => hkeys x (List.mem_cons_of_mem _ hx))]
    simp [childrenOf_eq hqrec, List.append_assoc]

theorem bfs_round {s : Store} (hInv : Inv s) (Q : List Nat)
    (hkeys : ∀ x ∈ Q, x ∈ keys s) (acc : List NodeInfo) (f : Nat) :
    NodeService.bfs s (f + Q.length) Q acc =
      NodeService.bfs s f ((Q.map (childrenOf s)).flatten) (acc ++ Q.map (infoOf s)) := by
  have := bfs_segment hInv Q hkeys [] acc f
  simpa using this

theorem bfs_eq_levels {s : Store} (hInv : Inv s) :
    ∀ f g d (F : List Nat) (acc : List NodeInfo), Frontier s d F → F.Nodup →
      countGE s d + 1 ≤ f → countGE s d + 1 ≤ g →
      NodeService.bfs s f F acc = (.ok (acc ++ (levels s g F).map (infoOf s)), s) := by
  intro f
  induction f using Nat.strong_induction_on with
  | _ f ih =>
    intro g d F acc hF hnd hfb hgb
    by_cases hFnil : F = []
    · subst hFnil
      obtain ⟨f', rfl⟩ : ∃ f', f = f' + 1 := ⟨f - 1, by omega⟩
      rw [levels_nil]
      simp [NodeService.bfs]
    · have hlen : 1 ≤ F.length := List.length_pos.mpr hFnil
      have hle : F.length ≤ countEQ s d := frontier_le_countEQ hF hnd
      have hsplit := countGE_succ s d
      have hf2 : F.length ≤ f := by omega
      obtain ⟨f', hf'⟩ : ∃ f', f = f' + F.length := ⟨f - F.length, by omega⟩
      rw [hf', bfs_round hInv F (fun x hx => (hF x hx).1) acc f']
      obtain ⟨hF', hnd'⟩ := frontier_step hInv hF
      have hf'b : countGE s (d + 1) + 1 ≤ f' := by omega
      obtain ⟨g', rfl⟩ : ∃ g', g = g' + 1 := ⟨g - 1, by omega⟩
      have hg'b : countGE s (d + 1) + 1 ≤ g' := by omega
      rw [ih f' (by omega) g' (d + 1) _ _ hF' (hnd' hnd) hf'b hg'b,
        levels_succ_of_ne_nil g' hFnil]
      simp [List.append_assoc]

/-- On a store satisfying the tree invariant, `getDescendants` of a
stored node succeeds and returns exactly the breadth-first levels below
it, each resolved to its `NodeInfo`. -/
theorem getDescendants_eq_levels {s : Store} (hInv : Inv s) {id : Nat} {rec : NodeRec}
    (hr : findNode s id = some rec) :
    NodeService.getDescendants s id =
      (.ok ((levels s (s.nodes.length + 1) rec.children).map (infoOf s)), s) := by
  have hct : chainTerminates s := hInv.2.2.2.2.2.2.1
  have hcp : childrenPoint s := hInv.2.2.2.1
  have hcn : childrenNodup s := hInv.2.2.2.2.1
  have hterm := hct _ (findNode_mem hr)
  obtain ⟨⟨d0, rt⟩, hchase⟩ := Option.isSome_iff_exists.mp hterm
  have hF : Frontier s (d0 + 1) rec.children := by
    intro c hc
    obtain ⟨crec, hcrec, _hpar, hdep⟩ := child_facts hcp hct hr hc
    refine ⟨mem_keys_of_findNode hcrec, ?_⟩
    unfold depthOf
    rw [hdep d0 rt hchase]
    rfl
  have hmain := bfs_eq_levels hInv (s.nodes.length + 1) (s.nodes.length + 1) (d0 + 1)
    rec.children [] hF (hcn _ (findNode_mem hr))
    (by have := countGE_le_length s (d0 + 1); omega)
    (by have := countGE_le_length s (d0 + 1); omega)
  unfold NodeService.getDescendants
  rw [getNode_fst_ok hr]
  simpa [NodeService.bfsFuel] using hmain

theorem levels_zero (s : Store) (F : List Nat) : levels s 0 F = [] := rfl

theorem mem_levels_of_mem_frontier {s : Store} {F : List Nat} {x : Nat}
    (hx : x ∈ F) {g : Nat} (hg : 1 ≤ g) : x ∈ levels s g F := by
  obtain ⟨g', rfl⟩ : ∃ g', g = g' + 1 := ⟨g - 1, by omega⟩
  have hFnil : F ≠ [] := fun h => by subst h; cases hx
  rw [levels_succ_of_ne_nil g' hFnil]
  exact List.mem_append_left _ hx

theorem levels_mem_facts {s : Store} (hInv : Inv s) :
    ∀ g d (F : List Nat), Frontier s d F →
      ∀ x ∈ levels s g F, x ∈ keys s ∧ ∃ dx, d ≤ dx ∧ depthOf s x = some dx := by
  intro g
  induction g with
  | zero =>
    intro d F _ x hx
    rw [levels_zero] at hx
    cases hx
  | succ g' ih =>
    intro d F hF x hx
    by_cases hFnil : F = []
    · subst hFnil
      rw [levels_nil] at hx
      cases hx
    · rw [levels_succ_of_ne_nil g' hFnil] at hx
      rcases List.mem_append.mp hx with hx | hx
      · obtain ⟨hk, hd⟩ := hF x hx
        exact ⟨hk, d, le_refl d, hd⟩
      · obtain ⟨hk, dx, hdx, hd⟩ := ih (d + 1) _ (frontier_step hInv hF).1 x hx
        exact ⟨hk, dx, by omega, hd⟩

theorem levels_closed_children {s : Store} (hInv : Inv s) :
    ∀ f d (F : List Nat), Frontier s d F → F.Nodup → countGE s d + 1 ≤ f →
      ∀ y ∈ levels s f F, ∀ c ∈ childrenOf s y, c ∈ levels s f F := by
  intro f
  induction f using Nat.strong_induction_on with
  | _ f ih =>
    intro d F hF hnd hfb y hy c hc
    by_cases hFnil : F = []
    · subst hFnil
      rw [levels_nil] at hy
      cases hy
    · have hlen : 1 ≤ F.length := List.length_pos.mpr hFnil
      have hle : F.length ≤ countEQ s d := frontier_le_countEQ hF hnd
      have hsplit := countGE_succ s d
      obtain ⟨f', rfl⟩ : ∃ f', f = f' + 1 := ⟨f - 1, by omega⟩
      obtain ⟨hF', hnd'⟩ := frontier_step hInv hF
      have hf'b : countGE s (d + 1) + 1 ≤ f' := by omega
      rw [levels_succ_of_ne_nil f' hFnil] at hy ⊢
      rcases List.mem_append.mp hy with hy | hy
      · refine List.mem_append_right _ ?_
        have hcnext : c ∈ (F.map (childrenOf s)).flatten :=
          List.mem_flatten_of_mem (List.mem_map.mpr ⟨y, hy, rfl⟩) hc
        exact mem_levels_of_mem_frontier hcnext (by omega)
      · exact List.mem_append_right _
          (ih f' (by omega) (d + 1) _ hF' (hnd' hnd) hf'b y hy c hc)

/-- Iterated parent lookup: the id reached after following `k` parent
edges, when every step resolves. -/
def parentIter (s : Store) : Nat → Nat → Option Nat
  | 0, x => some x
  | k + 1, x =>
    match parentOfRec s x with
    | some (some p) => parentIter s k p
    | _ => none

theorem chase_parentIter {s : Store} :
    ∀ {f x d rt}, chase s f x = some (d, rt) → parentIter s d x = some rt := by
  intro f
  induction f with
  | zero =>
    intro x d rt h
    obtain ⟨r, hr⟩ := chase_findNode h
    cases hp : r.parent with
    | none =>
      rw [chase_of_parent_none 0 hr hp] at h
      obtain ⟨rfl, rfl⟩ : d = 0 ∧ rt = x := by
        have := Option.some.injEq _ _ ▸ h
        exact ⟨(congrArg Prod.fst this).symm, (congrArg Prod.snd this).symm⟩
      rfl
    | some p =>
      rw [chase_zero_of_parent hr hp] at h
      exact absurd h (by simp)
  | succ n ih =>
    intro x d rt h
    obtain ⟨r, hr⟩ := chase_findNode h
    cases hp : r.parent with
    | none =>
      rw [chase_of_parent_none (n + 1) hr hp] at h
      obtain ⟨rfl, rfl⟩ : d = 0 ∧ rt = x := by
        have := Option.some.injEq _ _ ▸ h
        exact ⟨(congrArg Prod.fst this).symm, (congrArg Prod.snd this).symm⟩
      rfl
    | some p =>
      rw [chase_succ_of_parent n hr hp] at h
      obtain ⟨⟨d', rt'⟩, hw, hv⟩ := Option.map_eq_some'.mp h
      obtain ⟨rfl, rfl⟩ : d = d' + 1 ∧ rt = rt' := by
        have := hv
        exact ⟨(congrArg Prod.fst this).symm, (congrArg Prod.snd this).symm⟩
      unfold parentIter
      rw [show parentOfRec s x = some (some p) by unfold parentOfRec; rw [hr]; simp [hp]]
      exact ih hw

theorem mem_levels_ancestor {s : Store} (hInv : Inv s) :
    ∀ g d (F : List Nat) (q : Nat), Frontier s d F →
      (∀ y ∈ F, ∃ k, 1 ≤ k ∧ parentIter s k y = some q) →
      ∀ x ∈ levels s g F, ∃ k, 1 ≤ k ∧ parentIter s k x = some q := by
  intro g
  induction g with
  | zero =>
    intro d F q _ _ x hx
    rw [levels_zero] at hx
    cases hx
  | succ g' ih =>
    intro d F q hF hanc x hx
    by_cases hFnil : F = []
    · subst hFnil
      rw [levels_nil] at hx
      cases hx
    · rw [levels_succ_of_ne_nil g' hFnil] at hx
      rcases List.mem_append.mp hx with hx | hx
      · exact hanc x hx
      · refine ih (d + 1) _ q (frontier_step hInv hF).1 ?_ x hx
        intro y hy
        obtain ⟨l, hl, hyl⟩ := List.mem_flatten.mp hy
        obtain ⟨z, hz, rfl⟩ := List.mem_map.mp hl
        obtain ⟨zr, hzr⟩ := findNode_of_mem_keys (hF z hz).1
        rw [childrenOf_eq hzr] at hyl
        have hpr := hInv.2.2.2.1 _ (findNode_mem hzr) y hyl
        obtain ⟨k, hk1, hkq⟩ := hanc z hz
        refine ⟨k + 1, by omega, ?_⟩
        unfold parentIter
        rw [hpr]
        exact hkq

theorem children_frontier {s : Store} (hInv : Inv s) {q : Nat} {qrec : NodeRec}
    (hq : findNode s q = some qrec) :
    ∃ dq rtq, chase s s.nodes.length q = some (dq, rtq) ∧
      Frontier s (dq + 1) qrec.children := by
  have hct : chainTerminates s := hInv.2.2.2.2.2.2.1
  have hcp : childrenPoint s := hInv.2.2.2.1
  obtain ⟨⟨dq, rtq⟩, hchq⟩ := Option.isSome_iff_exists.mp (hct _ (findNode_mem hq))
  refine ⟨dq, rtq, hchq, ?_⟩
  intro c hc
  obtain ⟨crec, hcrec, _h, hdep⟩ := child_facts hcp hct hq hc
  refine ⟨mem_keys_of_findNode hcrec, ?_⟩
  unfold depthOf
  rw [hdep dq rtq hchq]
  rfl

theorem ancestor_mem_levels {s : Store} (hInv : Inv s) {q : Nat} {qrec : NodeRec}
    (hq : findNode s q = some qrec) :
    ∀ k x, 1 ≤ k → x ∈ keys s → parentIter s k x = some q →
      x ∈ levels s (s.nodes.length + 1) qrec.children := by
  have hct : chainTerminates s := hInv.2.2.2.2.2.2.1
  have hcn : childrenNodup s := hInv.2.2.2.2.1
  have hpl : parentLinked s := hInv.2.2.2.2.2.1
  obtain ⟨dq, rtq, hchq, hF⟩ := children_frontier hInv hq
  have hndF : qrec.children.Nodup := hcn _ (findNode_mem hq)
  have hfuel : countGE s (dq + 1) + 1 ≤ s.nodes.length + 1 := by
    have := countGE_le_length s (dq + 1)
    omega
  intro k
  induction k with
  | zero =>
    intro x h1
    exact absurd h1 (by omega)
  | succ k' ih =>
    intro x h1 hxkey hpi
    obtain ⟨xr, hxr⟩ := findNode_of_mem_keys hxkey
    unfold parentIter at hpi
    cases hpo : parentOfRec s x with
    | none => rw [hpo] at hpi; simp at hpi
    | some po =>
      cases po with
      | none => rw [hpo] at hpi; simp at hpi
      | some p =>
        rw [hpo] at hpi
        have hpi' : parentIter s k' p = some q := hpi
        have hxp : xr.parent = some p := by
          unfold parentOfRec at hpo
          rw [hxr] at hpo
          simpa using hpo
        have hxc : x ∈ childrenOf s p := hpl _ (findNode_mem hxr) p (by simp [hxp])
        by_cases hk0 : k' = 0
        · subst hk0
          obtain rfl : p = q := by simpa [parentIter] using hpi'
          rw [childrenOf_eq hq] at hxc
          exact mem_levels_of_mem_frontier hxc (by omega)
        · obtain ⟨pr, hpr⟩ : ∃ pr, findNode s p = some pr := by
            obtain ⟨v, hv⟩ := Option.isSome_iff_exists.mp (hct _ (findNode_mem hxr))
            have hlen : 0 < s.nodes.length :=
              List.length_pos.mpr (fun hnil => by
                have := findNode_mem hxr
                rw [hnil] at this
                cases this)
            obtain ⟨m, hm⟩ : ∃ m, s.nodes.length = m + 1 := ⟨s.nodes.length - 1, by omega⟩
            rw [hm, chase_succ_of_parent m hxr hxp] at hv
            obtain ⟨w, hw, _⟩ := Option.map_eq_some'.mp hv
            exact chase_findNode hw
          have hpmem := ih p (by omega) (mem_keys_of_findNode hpr) hpi'
          exact levels_closed_children hInv (s.nodes.length + 1) (dq + 1) qrec.children
            hF hndF hfuel p hpmem x hxc

theorem root_ancestor {s : Store} (hInv : Inv s) {R : Nat} {rrec : NodeRec}
    (hR : findNode s R = some rrec) (hroot : rrec.parent = none)
    {x : Nat} {xrec : NodeRec} (hx : findNode s x = some xrec) (hxR : x ≠ R) :
    ∃ k, 1 ≤ k ∧ parentIter s k x = some R := by
  have hct : chainTerminates s := hInv.2.2.2.2.2.2.1
  have hrc : rootCount s ≤ 1 := hInv.2.2.2.2.2.2.2
  obtain ⟨⟨d, rt⟩, hch⟩ := Option.isSome_iff_exists.mp (hct _ (findNode_mem hx))
  obtain ⟨rrec', hrt, hrtp⟩ := chase_root_parentless hch
  obtain rfl : rt = R :=
    congrArg Prod.fst (parentless_unique hrc (findNode_mem hrt) (findNode_mem hR) hrtp hroot)
  have hpi := chase_parentIter hch
  refine ⟨d, ?_, hpi⟩
  rcases Nat.eq_zero_or_pos d with rfl | hpos
  · exact absurd (by simpa [parentIter] using hpi) hxR
  · omega

/-- C9: on a store satisfying the tree invariant, neither the
breadth-first queue loop of `getDescendants` nor the parent-chain walk
of `getNodeInfo` runs out of fuel: the embedded computations never hit
the divergence marker, which is the shallow-embedding rendering of
termination of the source loops. -/
theorem traversals_terminate (s : Store) (hInv : Inv s) :
    (∀ id, (NodeService.getDescendants s id).1 ≠ .error .fuel) ∧
    (∀ id rec, findNode s id = some rec →
      (NodeService.rootWalk s (NodeService.chainFuel s) ⟨id, rec.parent, rec.children⟩).1
        ≠ .error .fuel) := by
  constructor
  · intro id
    cases hf : findNode s id with
    | none =>
      unfold NodeService.getDescendants
      rw [getNode_fst_err hf]
      simp
    | some rec =>
      rw [getDescendants_eq_levels hInv hf]
      simp
  · intro id rec hr
    have hterm := hInv.2.2.2.2.2.2.1 _ (findNode_mem hr)
    obtain ⟨v, hv⟩ := Option.isSome_iff_exists.mp hterm
    rw [show NodeService.chainFuel s = s.nodes.length from rfl,
      rootWalk_eq_chase rec.children hr hv]
    simp

/-- Four-node store: root 0 with children 1 and 2, node 1 with child 3;
the breadth-first example of the specification. -/
def bfsExampleStore : Store :=
  ⟨[(0, ⟨none, [1, 2]⟩), (1, ⟨some 0, [3]⟩), (2, ⟨some 0, []⟩), (3, ⟨some 1, []⟩)], 4⟩

/-- C9 witness: termination discharged on the four-node example store. -/
theorem traversals_terminate_witness :
    ((NodeService.getDescendants bfsExampleStore 0).1 ≠ .error .fuel) ∧
    (NodeService.rootWalk bfsExampleStore (NodeService.chainFuel bfsExampleStore)
      ⟨3, (⟨some 1, []⟩ : NodeRec).parent, (⟨some 1, []⟩ : NodeRec).children⟩).1
      ≠ .error .fuel :=
  ⟨(traversals_terminate bfsExampleStore (by decide)).1 0,
   (traversals_terminate bfsExampleStore (by decide)).2 3 ⟨some 1, []⟩ (by decide)⟩

theorem infoOf_depth {s : Store} {x dx : Nat} (h : depthOf s x = some dx) :
    (infoOf s x).depth = dx := by
  unfold depthOf at h
  obtain ⟨v, hch, hv⟩ := Option.map_eq_some'.mp h
  obtain ⟨r, hr⟩ := chase_findNode hch
  rw [infoOf_eq hr hch]
  exact hv

theorem sorted_of_all_eq {l : List Nat} {c : Nat} (h : ∀ x ∈ l, x = c) :
    l.Sorted (· ≤ ·) := by
  induction l with
  | nil => exact List.sorted_nil
  | cons a as ih =>
    rw [List.sorted_cons]
    refine ⟨?_, ih (fun x hx => h x (List.mem_cons_of_mem _ hx))⟩
    intro b hb
    rw [h a (List.mem_cons_self _ _), h b (List.mem_cons_of_mem _ hb)]

theorem levels_depth_sorted {s : Store} (hInv : Inv s) :
    ∀ g d (F : List Nat), Frontier s d F →
      ((levels s g F).map (fun x => (infoOf s x).depth)).Sorted (· ≤ ·) ∧
      ∀ x ∈ levels s g F, d ≤ (infoOf s x).depth := by
  intro g
  induction g with
  | zero =>
    intro d F _
    rw [levels_zero]
    exact ⟨List.sorted_nil, by intro x hx; cases hx⟩
  | succ g' ih =>
    intro d F hF
    by_cases hFnil : F = []
    · subst hFnil
      rw [levels_nil]
      exact ⟨List.sorted_nil, by intro x hx; cases hx⟩
    · rw [levels_succ_of_ne_nil g' hFnil]
      obtain ⟨hF', _⟩ := frontier_step hInv hF
      obtain ⟨hsort', hbound'⟩ := ih (d + 1) _ hF'
      have hFdep : ∀ x ∈ F, (infoOf s x).depth = d := fun x hx =>
        infoOf_depth (hF x hx).2
      constructor
      · rw [List.map_append]
        refine List.pairwise_append.mpr ⟨?_, hsort', ?_⟩
        · refine sorted_of_all_eq (c := d) ?_
          intro a ha
          obtain ⟨x, hx, rfl⟩ := List.mem_map.mp ha
          exact hFdep x hx
        · intro a ha b hb
          obtain ⟨x, hx, rfl⟩ := List.mem_map.mp ha
          obtain ⟨y, hy, rfl⟩ := List.mem_map.mp hb
          have := hbound' y hy
          rw [hFdep x hx]
          omega
      · intro x hx
        rcases List.mem_append.mp hx with hx | hx
        · rw [hFdep x hx]
        · have := hbound' x hx
          omega

/-- C4: on a store satisfying the tree invariant, `getDescendants` of a
stored node succeeds and emits exactly the breadth-first levels below
the node (each level in the parents' children-list insertion order, so
all children precede all grandchildren and siblings keep their
insertion order), with depths nondecreasing along the result; the node
itself never appears, and a leaf yields the empty sequence. -/
theorem getDescendants_breadth_first (s : Store) (hInv : Inv s) {id : Nat} {rec : NodeRec}
    (hr : findNode s id = some rec) :
    ∃ res, NodeService.getDescendants s id = (.ok res, s) ∧
      res = (levels s (s.nodes.length + 1) rec.children).map (infoOf s) ∧
      res.map NodeInfo.id = levels s (s.nodes.length + 1) rec.children ∧
      (res.map NodeInfo.depth).Sorted (· ≤ ·) ∧
      id ∉ res.map NodeInfo.id ∧
      (rec.children = [] → res = []) := by
  obtain ⟨d0, rt0, hch0, hF⟩ := children_frontier hInv hr
  have hids : ((levels s (s.nodes.length + 1) rec.children).map (infoOf s)).map NodeInfo.id
      = levels s (s.nodes.length + 1) rec.children := by
    rw [List.map_map]
    have : ∀ x ∈ levels s (s.nodes.length + 1) rec.children,
        (NodeInfo.id ∘ infoOf s) x = x := fun x _ => infoOf_id s x
    rw [List.map_congr_left this, List.map_id']
  refine ⟨_, getDescendants_eq_levels hInv hr, rfl, hids, ?_, ?_, ?_⟩
  · rw [List.map_map]
    exact (levels_depth_sorted hInv (s.nodes.length + 1) (d0 + 1) rec.children hF).1
  · rw [hids]
    intro hmem
    obtain ⟨_, dx, hdx, hdepth⟩ :=
      levels_mem_facts hInv (s.nodes.length + 1) (d0 + 1) rec.children hF id hmem
    have : depthOf s id = some d0 := by
      unfold depthOf
      rw [hch0]
      rfl
    rw [this] at hdepth
    have : dx = d0 := by simpa using hdepth.symm
    omega
  · intro hleaf
    rw [hleaf, levels_nil]
    rfl

/-- C4 witness: on the example store with root R = 0 having children
A = 1 and B = 2 where A has child C = 3, the descendant NodeInfo ids of
the root come out as the sequence 1, 2, 3. -/
theorem getDescendants_breadth_first_witness :
    (∃ res, NodeService.getDescendants bfsExampleStore 0 = (.ok res, bfsExampleStore) ∧
      res = (levels bfsExampleStore (bfsExampleStore.nodes.length + 1)
          (⟨none, [1, 2]⟩ : NodeRec).children).map (infoOf bfsExampleStore) ∧
      res.map NodeInfo.id = levels bfsExampleStore (bfsExampleStore.nodes.length + 1)
          (⟨none, [1, 2]⟩ : NodeRec).children ∧
      (res.map NodeInfo.depth).Sorted (· ≤ ·) ∧
      0 ∉ res.map NodeInfo.id ∧
      ((⟨none, [1, 2]⟩ : NodeRec).children = [] → res = [])) ∧
    (NodeService.getDescendants bfsExampleStore 0).1.map (fun l => l.map NodeInfo.id)
      = .ok [1, 2, 3] :=
  ⟨getDescendants_breadth_first bfsExampleStore (by decide) (by decide),
   by decide⟩

theorem rootWalk_error_kinds (s : Store) :
    ∀ fuel cur e, (NodeService.rootWalk s fuel cur).1 = .error e →
      e = .notFound ∨ e = .fuel := by
  intro fuel
  induction fuel with
  | zero =>
    intro cur e h
    unfold NodeService.rootWalk at h
    cases hp : cur.parent with
    | none => simp only [hp] at h; exact absurd h (by simp)
    | some p =>
      simp only [hp] at h
      right
      simpa using h.symm
  | succ n ih =>
    intro cur e h
    unfold NodeService.rootWalk at h
    cases hp : cur.parent with
    | none => simp only [hp] at h; exact absurd h (by simp)
    | some p =>
      simp only [hp] at h
      cases hf : findNode s p with
      | none =>
        simp only [getNode_fst_err hf] at h
        left
        simpa using h.symm
      | some r =>
        simp only [getNode_fst_ok hf] at h
        cases hw : NodeService.rootWalk s n ⟨p, r.parent, r.children⟩ with
        | mk a b =>
          simp only [hw] at h
          cases a with
          | error e' =>
            have he : e' = e := by simpa using h
            subst he
            exact ih _ _ (by rw [hw])
          | ok dr => simp at h

theorem getNodeInfo_error_kinds (s : Store) (fuel : Nat) (cur : Node) (e : Err)
    (h : (NodeService.getNodeInfo s fuel cur).1 = .error e) :
    e = .notFound ∨ e = .fuel := by
  unfold NodeService.getNodeInfo at h
  cases hw : NodeService.rootWalk s fuel cur with
  | mk a b =>
    rw [hw] at h
    cases a with
    | error e' =>
      have he : e' = e := by simpa using h
      subst he
      exact rootWalk_error_kinds s fuel cur e' (by rw [hw])
    | ok dr => simp at h

/-- C6 (amended): on every store, store-level `setParent` on a node with
no stored parent fails with `InvalidStructureError` before any
mutation; and on a store satisfying the tree invariant, service-level
`setParent` on the root fails with `InvalidStructureError` for every
new-parent argument other than the root itself (for the root itself the
self-parent guard fires first with `InvalidArgumentError`), leaving the
store unchanged; the root is never re-parented. -/
theorem setParent_root_rejected :
    (∀ (s : Store) (rootId anyId : Nat) (rec : NodeRec), findNode s rootId = some rec →
      rec.parent = none →
      NodeRepository.setParent s rootId anyId = (.error .invalidStructure, s)) ∧
    (∀ (s : Store), Inv s → ∀ (rootId anyId : Nat) (rec : NodeRec),
      findNode s rootId = some rec → rec.parent = none → anyId ≠ rootId →
      NodeService.setParent s rootId anyId = (.error .invalidStructure, s)) := by
  constructor
  · intro s rootId anyId rec h1 h2
    exact repo_setParent_on_root anyId h1 h2
  · intro s hInv rootId anyId rec hR hroot hXR
    have hne : ¬(rootId = anyId) := fun h => hXR h.symm
    have hdesc := getDescendants_eq_levels hInv hR
    unfold NodeService.setParent
    rw [if_neg hne, hdesc]
    simp only
    by_cases hany : (((levels s (s.nodes.length + 1) rec.children).map (infoOf s)).any
        (fun d => d.id = anyId)) = true
    · rw [if_pos hany]
    · rw [if_neg hany, repo_setParent_on_root anyId hR hroot]

/-- C6 witness: both amended halves discharged on the root/child store
with root 0 and nonexistent new parent 5. -/
theorem setParent_root_rejected_witness :
    NodeRepository.setParent rootChildStore 0 5 = (.error .invalidStructure, rootChildStore) ∧
    NodeService.setParent rootChildStore 0 5 = (.error .invalidStructure, rootChildStore) :=
  ⟨setParent_root_rejected.1 rootChildStore 0 5 ⟨none, [1]⟩ (by decide) rfl,
   setParent_root_rejected.2 rootChildStore (by decide) 0 5 ⟨none, [1]⟩ (by decide) rfl
     (by decide)⟩

theorem repo_setParent_ok {s : Store} {nodeId parentId oldPid : Nat}
    {nrec oprec prec1 : NodeRec} (hN : findNode s nodeId = some nrec)
    (hparent : nrec.parent = some oldPid) (hold : findNode s oldPid = some oprec)
    (hP1 : findNode (updateRec s oldPid
        ⟨oprec.parent, oprec.children.filter (fun c => c ≠ nodeId)⟩) parentId
      = some prec1) :
    ∃ s3, NodeRepository.setParent s nodeId parentId
      = (.ok ⟨nodeId, some parentId, nrec.children⟩, s3) := by
  unfold NodeRepository.setParent
  simp only [hN, hparent, hold, hP1]
  exact ⟨_, rfl⟩

/-- C2: on a store satisfying the tree invariant, for stored nodes N and
P with P distinct from N, the service `setParent(N, P)` fails with
`InvalidStructureError` exactly when P appears among `getDescendants(N)`;
in that case the store is unchanged, and otherwise the cycle check
passes and the reparent is delegated to the store, whose successful
outcome supplies the final store. -/
theorem setParent_cycle_guard (s : Store) (hInv : Inv s) {N P : Nat} {nrec prec : NodeRec}
    (hN : findNode s N = some nrec) (hP : findNode s P = some prec) (hNP : N ≠ P) :
    ∃ l, (NodeService.getDescendants s N).1 = .ok l ∧
      (((NodeService.setParent s N P).1 = .error .invalidStructure) ↔
        P ∈ l.map NodeInfo.id) ∧
      (P ∈ l.map NodeInfo.id →
        NodeService.setParent s N P = (.error .invalidStructure, s)) ∧
      (P ∉ l.map NodeInfo.id → ∃ node, NodeRepository.setParent s N P
          = (.ok node, (NodeService.setParent s N P).2)) := by
  have hct : chainTerminates s := hInv.2.2.2.2.2.2.1
  have hdesc := getDescendants_eq_levels hInv hN
  have hids : ((levels s (s.nodes.length + 1) nrec.children).map (infoOf s)).map NodeInfo.id
      = levels s (s.nodes.length + 1) nrec.children := by
    rw [List.map_map]
    have : ∀ x ∈ levels s (s.nodes.length + 1) nrec.children,
        (NodeInfo.id ∘ infoOf s) x = x := fun x _ => infoOf_id s x
    rw [List.map_congr_left this, List.map_id']
  have hanyIff : ((((levels s (s.nodes.length + 1) nrec.children).map (infoOf s)).any
        (fun d => d.id = P)) = true) ↔
      P ∈ ((levels s (s.nodes.length + 1) nrec.children).map (infoOf s)).map NodeInfo.id := by
    rw [List.any_eq_true, List.mem_map]
    constructor
    · rintro ⟨d, hd, hdid⟩
      exact ⟨d, hd, by simpa using hdid⟩
    · rintro ⟨d, hd, hdid⟩
      exact ⟨d, hd, by simpa using hdid⟩
  refine ⟨(levels s (s.nodes.length + 1) nrec.children).map (infoOf s), by rw [hdesc], ?_⟩
  by_cases hmem : P ∈ ((levels s (s.nodes.length + 1) nrec.children).map (infoOf s)).map
      NodeInfo.id
  · have hsvc : NodeService.setParent s N P = (.error .invalidStructure, s) := by
      unfold NodeService.setParent
      rw [if_neg hNP, hdesc]
      simp only
      rw [if_pos (hanyIff.mpr hmem)]
    refine ⟨?_, fun _ => hsvc, fun hcon => absurd hmem hcon⟩
    rw [hsvc]
    simpa using hmem
  · obtain ⟨oldPid, hparent⟩ : ∃ oldPid, nrec.parent = some oldPid := by
      cases hpar : nrec.parent with
      | some oldPid => exact ⟨oldPid, rfl⟩
      | none =>
        exfalso
        obtain ⟨k, hk1, hkpi⟩ :=
          root_ancestor hInv hN hpar hP (fun h => hNP h.symm)
        have := ancestor_mem_levels hInv hN k P hk1 (mem_keys_of_findNode hP) hkpi
        rw [← hids] at this
        exact hmem this
    obtain ⟨oprec, hold⟩ : ∃ oprec, findNode s oldPid = some oprec := by
      obtain ⟨v, hv⟩ := Option.isSome_iff_exists.mp (hct _ (findNode_mem hN))
      have hlen : 0 < s.nodes.length :=
        List.length_pos.mpr (fun hnil => by
          have := findNode_mem hN
          rw [hnil] at this
          cases this)
      obtain ⟨m, hm⟩ : ∃ m, s.nodes.length = m + 1 := ⟨s.nodes.length - 1, by omega⟩
      rw [hm, chase_succ_of_parent m hN hparent] at hv
      obtain ⟨w, hw, _⟩ := Option.map_eq_some'.mp hv
      exact chase_findNode hw
    obtain ⟨prec1, hP1⟩ : ∃ prec1, findNode (updateRec s oldPid
        ⟨oprec.parent, oprec.children.filter (fun c => c ≠ N)⟩) P = some prec1 := by
      by_cases hPold : P = oldPid
      · subst hPold
        exact ⟨_, findNode_updateRec_self _ hold⟩
      · exact ⟨prec, by rw [findNode_updateRec_ne _ hPold]; exact hP⟩
    obtain ⟨s3, hrepo⟩ := repo_setParent_ok hN hparent hold hP1
    have hsvc : NodeService.setParent s N P =
        NodeService.getNodeInfo s3 (NodeService.chainFuel s3)
          ⟨N, some P, nrec.children⟩ := by
      unfold NodeService.setParent
      rw [if_neg hNP, hdesc]
      simp only
      rw [if_neg (fun hcon => hmem (hanyIff.mp hcon)), hrepo]
    refine ⟨?_, fun hcon => absurd hcon hmem, fun _ => ⟨⟨N, some P, nrec.children⟩, ?_⟩⟩
    · rw [hsvc]
      constructor
      · intro hcon
        rcases getNodeInfo_error_kinds s3 (NodeService.chainFuel s3)
            ⟨N, some P, nrec.children⟩ .invalidStructure hcon with h | h <;> cases h
      · intro hcon
        exact absurd hcon hmem
    · rw [hsvc, getNodeInfo_snd]
      exact hrepo

/-- C2 witness: the guard discharged on the four-node example store for
node 1 and its descendant 3. -/
theorem setParent_cycle_guard_witness :
    ∃ l, (NodeService.getDescendants bfsExampleStore 1).1 = .ok l ∧
      (((NodeService.setParent bfsExampleStore 1 3).1 = .error .invalidStructure) ↔
        3 ∈ l.map NodeInfo.id) ∧
      (3 ∈ l.map NodeInfo.id →
        NodeService.setParent bfsExampleStore 1 3 = (.error .invalidStructure, bfsExampleStore)) ∧
      (3 ∉ l.map NodeInfo.id → ∃ node, NodeRepository.setParent bfsExampleStore 1 3
          = (.ok node, (NodeService.setParent bfsExampleStore 1 3).2)) :=
  @setParent_cycle_guard bfsExampleStore (by decide) 1 3 ⟨some 0, [3]⟩ ⟨some 1, []⟩
    (by decide) (by decide) (by decide)

/-! Children/parent bidirectional consistency. -/

theorem childConsistent_of_inv {s : Store} (hInv : Inv s) : ChildConsistent s := by
  obtain ⟨hnd, hbk, hbp, hcp, hcn, hpl, hct, hrc⟩ := hInv
  intro pid prec hpid c
  constructor
  · intro hc
    exact hcp _ (findNode_mem hpid) c hc
  · intro hpr
    obtain ⟨crec, hcrec, hcparent⟩ : ∃ crec, findNode s c = some crec ∧
        crec.parent = some pid := by
      unfold parentOfRec at hpr
      cases hf : findNode s c with
      | none => rw [hf] at hpr; exact absurd hpr (by simp)
      | some crec =>
        rw [hf] at hpr
        exact ⟨crec, rfl, by simpa using hpr⟩
    have := hpl _ (findNode_mem hcrec) pid (by simp [hcparent])
    rwa [childrenOf_eq hpid] at this

theorem parentOfRec_eq {s : Store} {x : Nat} {xr : NodeRec}
    (hx : findNode s x = some xr) : parentOfRec s x = some xr.parent := by
  unfold parentOfRec
  rw [hx]
  rfl

theorem repo_addNode_consistency {s : Store} (hInv : Inv s) {pid : Nat} {node : Node}
    {s' : Store} (hpidkey : pid ∈ keys s)
    (hadd : NodeRepository.addNode s (some pid) = (.ok node, s')) :
    ChildConsistent s' ∧
    (∀ prec, findNode s pid = some prec →
      findNode s' pid = some ⟨prec.parent, prec.children ++ [node.id]⟩) ∧
    findNode s' node.id = some ⟨some pid, []⟩ ∧
    (∀ j, j ≠ pid → j ≠ node.id → findNode s' j = findNode s j) := by
  obtain ⟨hnd, hbk, hbp, hcp, hcn, hpl, hct, hrc⟩ := hInv
  have hcs : ChildConsistent s :=
    childConsistent_of_inv ⟨hnd, hbk, hbp, hcp, hcn, hpl, hct, hrc⟩
  obtain ⟨prec0, hprec0⟩ := findNode_of_mem_keys hpidkey
  have hpidlt : pid < s.next := hbk _ (findNode_mem hprec0)
  have hfindnext_none : findNode s s.next = none := by
    cases hf : findNode s s.next with
    | none => rfl
    | some r => exact absurd (hbk _ (findNode_mem hf)) (lt_irrefl _)
  have hf1pid : findNode (⟨s.nodes ++ [(s.next, ⟨some pid, []⟩)], s.next + 1⟩ : Store) pid
      = some prec0 := lookupRec_append_of_some _ hprec0
  have hf1 : ∀ j, findNode (⟨s.nodes ++ [(s.next, ⟨some pid, []⟩)], s.next + 1⟩ : Store) j
      = if j = s.next then some ⟨some pid, []⟩ else findNode s j := by
    intro j
    by_cases hj : j = s.next
    · subst hj
      rw [if_pos rfl]
      show lookupRec (s.nodes ++ [(s.next, ⟨some pid, []⟩)]) s.next = _
      rw [lookupRec_append_of_none _ hfindnext_none]
      simp [lookupRec]
    · rw [if_neg hj]
      cases hf : findNode s j with
      | some r => exact lookupRec_append_of_some _ hf
      | none =>
        show lookupRec (s.nodes ++ [(s.next, ⟨some pid, []⟩)]) j = none
        rw [lookupRec_append_of_none _ hf]
        simp [lookupRec, Ne.symm hj]
  unfold NodeRepository.addNode at hadd
  simp only [hf1pid] at hadd
  simp only [Prod.mk.injEq, Except.ok.injEq] at hadd
  obtain ⟨hnode, hs'⟩ := hadd
  subst hs'
  subst hnode
  have hf' : ∀ j, findNode (updateRec ⟨s.nodes ++ [(s.next, ⟨some pid, []⟩)], s.next + 1⟩
        pid ⟨prec0.parent, prec0.children ++ [s.next]⟩) j =
      if j = pid then some ⟨prec0.parent, prec0.children ++ [s.next]⟩
      else if j = s.next then some ⟨some pid, []⟩
      else findNode s j := by
    intro j
    by_cases hj1 : j = pid
    · subst hj1
      rw [if_pos rfl]
      exact findNode_updateRec_self _ hf1pid
    · rw [if_neg hj1, findNode_updateRec_ne _ hj1, hf1 j]
  have hpt : ∀ c, parentOfRec (updateRec ⟨s.nodes ++ [(s.next, ⟨some pid, []⟩)], s.next + 1⟩
        pid ⟨prec0.parent, prec0.children ++ [s.next]⟩) c =
      if c = s.next then some (some pid) else parentOfRec s c := by
    intro c
    unfold parentOfRec
    rw [hf' c]
    by_cases hc1 : c = pid
    · rw [hc1, if_pos rfl, if_neg (by omega : ¬pid = s.next), hprec0]
      rfl
    · rw [if_neg hc1]
      by_cases hc2 : c = s.next
      · rw [if_pos hc2, if_pos hc2]
        rfl
      · rw [if_neg hc2, if_neg hc2]
  refine ⟨?_, ?_, ?_, ?_⟩
  · intro q qrec' hq c
    rw [hf' q] at hq
    by_cases hq1 : q = pid
    · rw [if_pos hq1] at hq
      obtain rfl : qrec' = ⟨prec0.parent, prec0.children ++ [s.next]⟩ := by
        simpa using hq.symm
      rw [hq1, hpt c]
      by_cases hc : c = s.next
      · subst hc
        simp
      · rw [if_neg hc]
        have hbase := hcs pid prec0 hprec0 c
        simp only [List.mem_append, List.mem_singleton, hc, or_false]
        exact hbase
    · rw [if_neg hq1] at hq
      by_cases hq2 : q = s.next
      · rw [if_pos hq2] at hq
        obtain rfl : qrec' = ⟨some pid, []⟩ := by simpa using hq.symm
        rw [hq2, hpt c]
        by_cases hc : c = s.next
        · subst hc
          simp only [if_pos rfl]
          constructor
          · intro hcon
            cases hcon
          · intro hcon
            have : pid = s.next := by simpa using hcon
            omega
        · rw [if_neg hc]
          constructor
          · intro hcon
            cases hcon
          · intro hcon
            obtain ⟨crec, hcrec, hcpar⟩ : ∃ crec, findNode s c = some crec ∧
                crec.parent = some s.next := by
              unfold parentOfRec at hcon
              cases hf : findNode s c with
              | none => rw [hf] at hcon; exact absurd hcon (by simp)
              | some crec =>
                rw [hf] at hcon
                exact ⟨crec, rfl, by simpa using hcon⟩
            exact absurd (hbp _ (findNode_mem hcrec) s.next (by simp [hcpar]))
              (lt_irrefl _)
      · rw [if_neg hq2] at hq
        rw [hpt c]
        by_cases hc : c = s.next
        · subst hc
          rw [if_pos rfl]
          constructor
          · intro hcon
            have := (hcs q qrec' hq s.next).mp hcon
            rw [show parentOfRec s s.next = none by
              unfold parentOfRec; rw [hfindnext_none]; rfl] at this
            cases this
          · intro hcon
            have : pid = q := by simpa using hcon
            exact absurd this.symm hq1
        · rw [if_neg hc]
          exact hcs q qrec' hq c
  · intro prec hprec
    obtain rfl : prec = prec0 := by
      rw [hprec0] at hprec
      simpa using hprec.symm
    rw [hf' pid, if_pos rfl]
  · rw [hf' s.next, if_neg (by omega : ¬s.next = pid), if_pos rfl]
  · intro j hj1 hj2
    rw [hf' j, if_neg hj1, if_neg hj2]

theorem repo_setParent_consistency {s : Store} (hInv : Inv s) {n p : Nat} {node : Node}
    {s' : Store} {nrec : NodeRec} {oldPid : Nat} (hN : findNode s n = some nrec)
    (hparent : nrec.parent = some oldPid)
    (hset : NodeRepository.setParent s n p = (.ok node, s')) :
    ChildConsistent s' ∧
    parentOfRec s' n = some (some p) ∧
    (oldPid ≠ p → p ≠ n →
      childrenOf s' oldPid = (childrenOf s oldPid).filter (fun c => c ≠ n) ∧
      childrenOf s' p = childrenOf s p ++ [n]) ∧
    (∀ j, j ≠ oldPid → j ≠ p → j ≠ n → findNode s' j = findNode s j) := by
  obtain ⟨hnd, hbk, hbp, hcp, hcn, hpl, hct, hrc⟩ := hInv
  have hcs : ChildConsistent s :=
    childConsistent_of_inv ⟨hnd, hbk, hbp, hcp, hcn, hpl, hct, hrc⟩
  have hpself := no_self_parent (hct _ (findNode_mem hN))
  have hparentOf_n : parentOfRec s n = some (some oldPid) := by
    rw [parentOfRec_eq hN, hparent]
  have hnold : n ≠ oldPid := by
    intro h
    apply hpself
    rw [hparentOf_n, ← h]
  unfold NodeRepository.setParent at hset
  simp only [hN, hparent] at hset
  cases hold : findNode s oldPid with
  | none =>
    rw [hold] at hset
    simp at hset
  | some oprec =>
    rw [hold] at hset
    simp only at hset
    cases hP1 : findNode (updateRec s oldPid
        ⟨oprec.parent, oprec.children.filter (fun c => c ≠ n)⟩) p with
    | none =>
      rw [hP1] at hset
      simp at hset
    | some prec1 =>
      rw [hP1] at hset
      simp only at hset
      have hcur : findNode (updateRec (updateRec s oldPid
          ⟨oprec.parent, oprec.children.filter (fun c => c ≠ n)⟩) p
          ⟨prec1.parent, prec1.children ++ [n]⟩) n =
          some (if n = p then ⟨prec1.parent, prec1.children ++ [n]⟩ else nrec) := by
        by_cases hnp : n = p
        · rw [if_pos hnp]
          subst hnp
          exact findNode_updateRec_self _ hP1
        · rw [if_neg hnp, findNode_updateRec_ne _ hnp,
            findNode_updateRec_ne _ hnold]
          exact hN
      rw [hcur] at hset
      simp only [Prod.mk.injEq, Except.ok.injEq] at hset
      obtain ⟨hnode, hs'⟩ := hset
      subst hs'
      set cur : NodeRec := if n = p then ⟨prec1.parent, prec1.children ++ [n]⟩ else nrec
        with hcurdef
      have hft : ∀ j, findNode (updateRec (updateRec (updateRec s oldPid
            ⟨oprec.parent, oprec.children.filter (fun c => c ≠ n)⟩) p
            ⟨prec1.parent, prec1.children ++ [n]⟩) n ⟨some p, cur.children⟩) j =
          if j = n then some ⟨some p, cur.children⟩
          else if j = p then some ⟨prec1.parent, prec1.children ++ [n]⟩
          else if j = oldPid then
            some ⟨oprec.parent, oprec.children.filter (fun c => c ≠ n)⟩
          else findNode s j := by
        intro j
        by_cases hj1 : j = n
        · rw [hj1, if_pos rfl]
          exact findNode_updateRec_self _ hcur
        · rw [if_neg hj1, findNode_updateRec_ne _ hj1]
          by_cases hj2 : j = p
          · rw [hj2, if_pos rfl]
            exact findNode_updateRec_self _ hP1
          · rw [if_neg hj2, findNode_updateRec_ne _ hj2]
            by_cases hj3 : j = oldPid
            · rw [hj3, if_pos rfl]
              exact findNode_updateRec_self _ hold
            · rw [if_neg hj3, findNode_updateRec_ne _ hj3]
      have hprec1s : p ≠ oldPid → findNode s p = some prec1 := by
        intro hpo
        rw [findNode_updateRec_ne _ hpo] at hP1
        exact hP1
      have hprec1o : p = oldPid →
          prec1 = ⟨oprec.parent, oprec.children.filter (fun c => c ≠ n)⟩ := by
        intro hpo
        rw [hpo, findNode_updateRec_self _ hold] at hP1
        simpa using hP1.symm
      have hpt : ∀ c, parentOfRec (updateRec (updateRec (updateRec s oldPid
            ⟨oprec.parent, oprec.children.filter (fun c => c ≠ n)⟩) p
            ⟨prec1.parent, prec1.children ++ [n]⟩) n ⟨some p, cur.children⟩) c =
          if c = n then some (some p) else parentOfRec s c := by
        intro c
        unfold parentOfRec
        rw [hft c]
        by_cases hc1 : c = n
        · rw [if_pos hc1, if_pos hc1]
          rfl
        · rw [if_neg hc1, if_neg hc1]
          by_cases hc2 : c = p
          · rw [if_pos hc2]
            by_cases hpo : p = oldPid
            · rw [hc2, hpo, hold, hprec1o hpo]
              rfl
            · rw [hc2, hprec1s hpo]
              rfl
          · rw [if_neg hc2]
            by_cases hc3 : c = oldPid
            · rw [if_pos hc3, hc3, hold]
              rfl
            · rw [if_neg hc3]
  -- two remaining goals: the parent-map equality for the default case and the main conj
      refine ⟨?_, ?_, ?_, ?_⟩
      · intro q qrec' hq c
        rw [hft q] at hq
        rw [hpt c]
        by_cases hq1 : q = n
        · rw [if_pos hq1] at hq
          obtain rfl : qrec' = ⟨some p, cur.children⟩ := by simpa using hq.symm
          by_cases hnp : n = p
          · have hcur2 : cur = ⟨prec1.parent, prec1.children ++ [n]⟩ := by
              rw [hcurdef, if_pos hnp]
            have hprec1n : prec1 = nrec := by
              have := hprec1s (fun h => hnold (hnp.trans h))
              rw [← hnp, hN] at this
              simpa using this.symm
            by_cases hc : c = n
            · rw [if_pos hc]
              simp only [hcur2, hprec1n, hq1, hc]
              simp [← hnp]
            · rw [if_neg hc]
              simp only [hcur2, hprec1n]
              simp only [List.mem_append, List.mem_singleton, hc, or_false]
              rw [hq1]
              exact hcs n nrec hN c
          · have hcur2 : cur = nrec := by rw [hcurdef, if_neg hnp]
            by_cases hc : c = n
            · rw [if_pos hc]
              constructor
              · intro hcon
                rw [hcur2] at hcon
                have := (hcs n nrec hN n).mp (hc ▸ hcon)
                rw [hparentOf_n] at this
                have : oldPid = n := by simpa using this
                exact absurd this.symm hnold
              · intro hcon
                have : p = q := by simpa using hcon
                exact absurd (this.trans hq1) (fun h => hnp h.symm)
            · rw [if_neg hc]
              rw [hcur2, hq1]
              exact hcs n nrec hN c
        · rw [if_neg hq1] at hq
          by_cases hq2 : q = p
          · rw [if_pos hq2] at hq
            obtain rfl : qrec' = ⟨prec1.parent, prec1.children ++ [n]⟩ := by
              simpa using hq.symm
            by_cases hc : c = n
            · rw [if_pos hc]
              simp [hq2, hc]
            · rw [if_neg hc]
              simp only [List.mem_append, List.mem_singleton, hc, or_false]
              by_cases hpo : p = oldPid
              · rw [hprec1o hpo]
                simp only [List.mem_filter, hc, decide_not]
                rw [hq2, hpo]
                constructor
                · intro hcon
                  exact (hcs oldPid oprec hold c).mp hcon.1
                · intro hcon
                  exact ⟨(hcs oldPid oprec hold c).mpr hcon, by simp [hc]⟩
              · rw [hq2]
                exact hcs p prec1 (hprec1s hpo) c
          · rw [if_neg hq2] at hq
            by_cases hq3 : q = oldPid
            · rw [if_pos hq3] at hq
              obtain rfl : qrec' = ⟨oprec.parent,
                  oprec.children.filter (fun c => c ≠ n)⟩ := by simpa using hq.symm
              by_cases hc : c = n
              · rw [if_pos hc]
                constructor
                · intro hcon
                  simp only [List.mem_filter, hc, decide_not] at hcon
                  simp at hcon
                · intro hcon
                  have : p = q := by simpa using hcon
                  exact absurd (this.trans hq3) (fun h => hq2 (hq3.trans h.symm))
              · rw [if_neg hc]
                simp only [List.mem_filter, hc, decide_not]
                rw [hq3]
                constructor
                · intro hcon
                  exact (hcs oldPid oprec hold c).mp hcon.1
                · intro hcon
                  exact ⟨(hcs oldPid oprec hold c).mpr hcon, by simp [hc]⟩
            · rw [if_neg hq3] at hq
              by_cases hc : c = n
              · rw [if_pos hc]
                constructor
                · intro hcon
                  have := (hcs q qrec' hq n).mp (hc ▸ hcon)
                  rw [hparentOf_n] at this
                  have : oldPid = q := by simpa using this
                  exact absurd this.symm hq3
                · intro hcon
                  have : p = q := by simpa using hcon
                  exact absurd this.symm hq2
              · rw [if_neg hc]
                exact hcs q qrec' hq c
      · rw [hpt n, if_pos rfl]
      · intro hop hpn
        constructor
        · unfold childrenOf
          rw [hft oldPid, if_neg (Ne.symm hnold), if_neg hop, if_pos rfl, hold]
        · unfold childrenOf
          rw [hft p, if_neg hpn, if_pos rfl]
          by_cases hpo : p = oldPid
          · exact absurd hpo.symm hop
          · rw [hprec1s hpo]
      · intro j hj1 hj2 hj3
        rw [hft j, if_neg hj3, if_neg hj2, if_neg hj1]

/-- C7: on a store satisfying the tree invariant, the children/parent
biconditional (an id is in a stored node's children list iff its stored
parent is that node) holds after every completed mutation: a successful
store `addNode(pid)` appends the new node's id to exactly the parent's
children list and leaves every other record untouched, and a successful
store `setParent(n, p)` removes `n` from the old parent's children
list, appends it to the new parent's, updates `n`'s parent pointer, and
leaves every other record untouched — and both resulting stores satisfy
the biconditional. -/
theorem children_parent_consistency (s : Store) (hInv : Inv s) :
    (∀ pid node s', pid ∈ keys s →
      NodeRepository.addNode s (some pid) = (.ok node, s') →
      ChildConsistent s' ∧
      (∀ prec, findNode s pid = some prec →
        findNode s' pid = some ⟨prec.parent, prec.children ++ [node.id]⟩) ∧
      findNode s' node.id = some ⟨some pid, []⟩ ∧
      (∀ j, j ≠ pid → j ≠ node.id → findNode s' j = findNode s j)) ∧
    (∀ n p node s' nrec oldPid, findNode s n = some nrec →
      nrec.parent = some oldPid →
      NodeRepository.setParent s n p = (.ok node, s') →
      ChildConsistent s' ∧
      parentOfRec s' n = some (some p) ∧
      (oldPid ≠ p → p ≠ n →
        childrenOf s' oldPid = (childrenOf s oldPid).filter (fun c => c ≠ n) ∧
        childrenOf s' p = childrenOf s p ++ [n]) ∧
      (∀ j, j ≠ oldPid → j ≠ p → j ≠ n → findNode s' j = findNode s j)) :=
  ⟨fun _pid _node _s' h1 h2 => repo_addNode_consistency hInv h1 h2,
   fun _n _p _node _s' _nrec _oldPid h1 h2 h3 =>
     repo_setParent_consistency hInv h1 h2 h3⟩

/-- Store after adding a child of node 2 to the four-node example. -/
def afterAddStore : Store :=
  ⟨[(0, ⟨none, [1, 2]⟩), (1, ⟨some 0, [3]⟩), (2, ⟨some 0, [4]⟩), (3, ⟨some 1, []⟩),
    (4, ⟨some 2, []⟩)], 5⟩

/-- Store after reparenting node 3 under the root in the four-node
example. -/
def afterMoveStore : Store :=
  ⟨[(0, ⟨none, [1, 2, 3]⟩), (1, ⟨some 0, []⟩), (2, ⟨some 0, []⟩), (3, ⟨some 0, []⟩)], 4⟩

/-- C7 witness: both halves discharged on the four-node example store,
adding a child of node 2 and moving node 3 from parent 1 to parent 0. -/
theorem children_parent_consistency_witness :
    (ChildConsistent afterAddStore ∧
      (∀ prec, findNode bfsExampleStore 2 = some prec →
        findNode afterAddStore 2 = some ⟨prec.parent, prec.children ++ [4]⟩) ∧
      findNode afterAddStore 4 = some ⟨some 2, []⟩ ∧
      (∀ j, j ≠ 2 → j ≠ 4 → findNode afterAddStore j = findNode bfsExampleStore j)) ∧
    (ChildConsistent afterMoveStore ∧
      parentOfRec afterMoveStore 3 = some (some 0) ∧
      ((1 : Nat) ≠ 0 → (0 : Nat) ≠ 3 →
        childrenOf afterMoveStore 1 = (childrenOf bfsExampleStore 1).filter
          (fun c => c ≠ 3) ∧
        childrenOf afterMoveStore 0 = childrenOf bfsExampleStore 0 ++ [3]) ∧
      (∀ j, j ≠ 1 → j ≠ 0 → j ≠ 3 →
        findNode afterMoveStore j = findNode bfsExampleStore j)) :=
  ⟨(children_parent_consistency bfsExampleStore (by decide)).1 2 ⟨4, some 2, []⟩
      afterAddStore (by decide) (by decide),
   (children_parent_consistency bfsExampleStore (by decide)).2 3 0 ⟨3, some 0, []⟩
      afterMoveStore ⟨some 1, []⟩ 1 (by decide) rfl (by decide)⟩

end NodeTree
